import Mathlib

/-!
Verification of the learning-platform core (marker parser, progress store,
challenge validator, page segmentation) against its natural-language
specification.  Strings are modelled as `List Char`; each Python function
used by a claim is translated into an executable Lean definition.
The relevant sources are `learn/parser.py`, `learn/progress.py` and
`learn/ui.py`.
-/

set_option maxHeartbeats 1000000

namespace LearnPlatform

/-- Strings are modelled as lists of characters. -/
abbrev Str := List Char

/-- Python's `\s` / `str.strip` whitespace on the ASCII range. -/
def isPyWs (c : Char) : Bool :=
  c = ' ' || c = '\t' || c = '\n' || c = '\r' || c = '\x0b' || c = '\x0c'

/-- `str.lstrip()` — drop leading whitespace. -/
def lstrip (s : Str) : Str := s.dropWhile isPyWs

/-- `str.rstrip()` — drop trailing whitespace. -/
def rstrip (s : Str) : Str := (s.reverse.dropWhile isPyWs).reverse

/-- `str.strip()` — drop surrounding whitespace. -/
def strip (s : Str) : Str := rstrip (lstrip s)

/-- Python's `pat in s` substring test. -/
def hasSubstr (pat : Str) : Str → Bool
  | [] => pat.isEmpty
  | c :: cs => pat.isPrefixOf (c :: cs) || hasSubstr pat cs

/-- Does the string contain a non-whitespace character?
(`s.strip()` is nonempty exactly when this holds.) -/
def hasNonWs (s : Str) : Bool := s.any (fun c => !(isPyWs c))

/-- Auxiliary scanner for `str.count`: the `Nat` argument is the number of
characters still to be skipped because they belong to an already-counted
match (Python counts non-overlapping occurrences left to right, resuming
the scan after each match). -/
def countOccsAux (pat : Str) : Str → Nat → Nat
  | [], _ => 0
  | _ :: cs, k + 1 => countOccsAux pat cs k
  | c :: cs, 0 =>
    if pat.isPrefixOf (c :: cs) then 1 + countOccsAux pat cs (pat.length - 1)
    else countOccsAux pat cs 0

/-- Python's `s.count(pat)` for a nonempty pattern. -/
def countOccs (pat s : Str) : Nat := countOccsAux pat s 0

/-! ## Challenge validator (`learn/ui.py`)

`_strip_comments` removes `"""..."""` and `'''...'''` regions (non-greedy,
`re.DOTALL`) and then `#`-to-end-of-line comments; `_check_placeholders`
tests whether the placeholder token `XXXX___` survives; `_validate_challenge`
reports `Incomplete(count)` without running the file when it does, and
otherwise classifies the subprocess outcome by exit code. -/

/-- The fill-in placeholder token scanned for by the validator. -/
def placeholder : Str := "XXXX___".toList

/-- A triple-quote delimiter, `"""` or `'''`. -/
def tripleQuote (q : Char) : Str := [q, q, q]

/-- Scan for the closing triple quote of `q`; on success return how many
characters (including the closing quotes) the region body consumes.
This realises the non-greedy `.*?` of `re.sub(r'""".*?"""', ...)`:
the first closing delimiter ends the match. -/
def findClose (q : Char) : Str → Option Nat
  | [] => none
  | c :: cs =>
    if (tripleQuote q).isPrefixOf (c :: cs) then some 3
    else (findClose q cs).map (· + 1)

/-- One pass of `re.sub(r'""".*?"""', "", code, flags=re.DOTALL)` (with
quote character `q`).  The `Nat` argument counts characters still being
skipped because they belong to a matched (removed) region; an opening
delimiter with no closing delimiter ahead does not match and is kept,
exactly as in the regex. -/
def stripTriplesAux (q : Char) : Str → Nat → Str
  | [], _ => []
  | _ :: cs, k + 1 => stripTriplesAux q cs k
  | c :: cs, 0 =>
    if (tripleQuote q).isPrefixOf (c :: cs) then
      match findClose q (cs.drop 2) with
      | some k => stripTriplesAux q cs (2 + k)
      | none => c :: stripTriplesAux q cs 0
    else c :: stripTriplesAux q cs 0

/-- `re.sub(r'#.*', "", code)`: the `Bool` flag records whether the scanner
is inside a line comment (which a newline terminates; the newline itself
is kept, since `.` does not match it). -/
def stripHashAux : Str → Bool → Str
  | [], _ => []
  | c :: cs, true => if c = '\n' then c :: stripHashAux cs false else stripHashAux cs true
  | c :: cs, false => if c = '#' then stripHashAux cs true else c :: stripHashAux cs false

/-- `_strip_comments` from `learn/ui.py`: strip `"""` docstrings, then
`'''` docstrings, then `#` comments. -/
def strip_comments (code : Str) : Str :=
  stripHashAux (stripTriplesAux '\'' (stripTriplesAux '"' code 0) 0) false

/-- `_check_placeholders`: does `XXXX___` survive comment stripping? -/
def check_placeholders (code : Str) : Bool :=
  hasSubstr placeholder (strip_comments code)

/-- Outcome of the subprocess run of a challenge file (the `subprocess.run`
call with `timeout=120`), supplied to the validator as data: either the
run timed out, or it completed with an exit code and captured output. -/
inductive ExecOutcome : Type
  | timedOut : ExecOutcome
  | completed (returncode : Int) (stdout stderr : Str) : ExecOutcome
deriving DecidableEq

/-- The validation outcomes reported by `_validate_challenge`. -/
inductive ValidationResult : Type
  | incomplete (count : Nat) : ValidationResult
  | timeout : ValidationResult
  | passed (output : Str) : ValidationResult
  | failed (error : Str) : ValidationResult
deriving DecidableEq

/-- Error-text truncation from `_validate_challenge`:
`if len(error) > 800: error = error[:800] + "\n..."`. -/
def truncate_error (e : Str) : Str :=
  if e.length > 800 then e.take 800 ++ "\n...".toList else e

/-- Classification of a completed run (`_validate_challenge`, exit-code
branch): exit code 0 passes with the stripped stdout; otherwise
`error = result.stderr.strip() or result.stdout.strip()` truncated. -/
def classify (returncode : Int) (stdout stderr : Str) : ValidationResult :=
  if returncode = 0 then .passed (strip stdout)
  else .failed (truncate_error (if strip stderr ≠ [] then strip stderr else strip stdout))

/-- `_validate_challenge` on an existing file with contents `code`:
placeholders remaining (outside comments/docstrings) report
`Incomplete(count)` before any execution; otherwise the run outcome is
classified. -/
def validate_challenge (code : Str) (exec : ExecOutcome) : ValidationResult :=
  if check_placeholders code then
    .incomplete (countOccs placeholder (strip_comments code))
  else
    match exec with
    | .timedOut => .timeout
    | .completed rc out err => classify rc out err

/-! ## Progress store (`learn/progress.py`) -/

/-- A per-module progress entry.  The Python code stores a dict that only
ever receives the keys `lesson`, `quiz_score` and `challenge`; absent keys
are `none`. -/
structure ModuleEntry : Type where
  lesson : Option Bool
  quiz_score : Option String
  challenge : Option Bool
deriving DecidableEq

/-- A fresh `{}` module entry. -/
def emptyModule : ModuleEntry := ⟨none, none, none⟩

/-- Python-dict association lists: first-match lookup. -/
abbrev Dict (α : Type) := List (String × α)

/-- `d.setdefault(k, v)`: insert `v` at the end iff `k` is absent. -/
def dictSetdefault (m : Dict α) (k : String) (v : α) : Dict α :=
  if (m.lookup k).isSome then m else m ++ [(k, v)]

/-- `d[k] = v`: replace in place if present, otherwise append. -/
def dictInsert (m : Dict α) (k : String) (v : α) : Dict α :=
  match m with
  | [] => [(k, v)]
  | (k', v') :: rest => if k' = k then (k, v) :: rest else (k', v') :: dictInsert rest k v

/-- The progress document held in `.learn-progress.json` (after loading,
all three top-level keys are present). -/
structure ProgressDoc : Type where
  courses : Dict (Dict ModuleEntry)
  last_active : Option String
  streak : Nat
deriving DecidableEq

/-- The default document `{"courses": {}, "last_active": None, "streak": 0}`. -/
def default_progress : ProgressDoc := ⟨[], none, 0⟩

/-- A parsed JSON object, with each of the three known top-level keys
possibly absent (`json.load` output before the `setdefault` backfill). -/
structure RawDoc : Type where
  courses : Option (Dict (Dict ModuleEntry))
  last_active : Option (Option String)
  streak : Option Nat
deriving DecidableEq

/-- Top-level value produced by `json.load`: either a JSON object, or a
non-object JSON value (list, string, number, boolean or null) — valid
JSON on which `data.setdefault` raises `AttributeError`. -/
inductive JsonTop : Type
  | jobj (r : RawDoc) : JsonTop
  | jnonobj : JsonTop
deriving DecidableEq

/-- The situations `load_progress` can encounter: missing file, file whose
contents fail to parse (`json.JSONDecodeError`) or fail to read
(`OSError`), or successfully parsed JSON. -/
inductive LoadInput : Type
  | absent : LoadInput
  | unreadable : LoadInput
  | parsed (v : JsonTop) : LoadInput
deriving DecidableEq

/-- `load_progress` from `learn/progress.py`.  A missing file and a parse
failure both yield the default; a parsed object is backfilled key by key
with `data.setdefault(key, default[key])`.  A parsed non-object raises
`AttributeError` at `data.setdefault` — an exception the
`except (json.JSONDecodeError, OSError)` clause does not catch — which is
modelled as `Except.error ()`. -/
def load_progress : LoadInput → Except Unit ProgressDoc
  | .absent => .ok default_progress
  | .unreadable => .ok default_progress
  | .parsed (.jobj r) => .ok ⟨r.courses.getD [], r.last_active.getD none, r.streak.getD 0⟩
  | .parsed .jnonobj => .error ()

/-- `update_streak`: `today` and `yesterday` stand for
`date.today().isoformat()` and `(date.today() - timedelta(days=1)).isoformat()`.
Returns the updated document and the returned streak number. -/
def update_streak (today yesterday : String) (p : ProgressDoc) : ProgressDoc × Nat :=
  if p.last_active = some today then (p, p.streak)
  else if p.last_active = some yesterday then
    ({ p with streak := p.streak + 1, last_active := some today }, p.streak + 1)
  else
    ({ p with streak := 1, last_active := some today }, 1)

/-- `_ensure_module`: `progress["courses"].setdefault(course_id, {})`
followed by `progress["courses"][course_id].setdefault(module_id, {})`. -/
def ensure_module (p : ProgressDoc) (c m : String) : ProgressDoc :=
  let cs := dictSetdefault p.courses c []
  let mods := (cs.lookup c).getD []
  { p with courses := dictInsert cs c (dictSetdefault mods m emptyModule) }

/-- Write one field of `progress["courses"][c][m]` after `_ensure_module`. -/
def set_module_field (p : ProgressDoc) (c m : String)
    (f : ModuleEntry → ModuleEntry) : ProgressDoc :=
  let p' := ensure_module p c m
  let mods := (p'.courses.lookup c).getD []
  let entry := (mods.lookup m).getD emptyModule
  { p' with courses := dictInsert p'.courses c (dictInsert mods m (f entry)) }

/-- `mark_lesson`: `progress["courses"][c][m]["lesson"] = True`. -/
def mark_lesson (p : ProgressDoc) (c m : String) : ProgressDoc :=
  set_module_field p c m fun e => { e with lesson := some true }

/-- `mark_quiz`: `progress["courses"][c][m]["quiz_score"] = f"{score}/{total}"`. -/
def mark_quiz (p : ProgressDoc) (c m : String) (score total : Nat) : ProgressDoc :=
  set_module_field p c m fun e =>
    { e with quiz_score := some (toString score ++ "/" ++ toString total) }

/-- `mark_challenge`: `progress["courses"][c][m]["challenge"] = True`. -/
def mark_challenge (p : ProgressDoc) (c m : String) : ProgressDoc :=
  set_module_field p c m fun e => { e with challenge := some true }

/-- `get_module_progress`: the entry for `(c, m)`, `{}` if absent. -/
def get_module_progress (p : ProgressDoc) (c m : String) : ModuleEntry :=
  (((p.courses.lookup c).getD []).lookup m).getD emptyModule

/-! ## Marker parser (`learn/parser.py`)

`parse_readme` truncates the document at the first
`END_MARKER = <!--\s*lesson:end\s*-->`, splits it on
`PAGE_MARKER = <!--\s*lesson:page\s+(.*?)\s*-->`, rewrites each
`IMAGE_LINE = !\[(.*?)\]\((.*?)\)` occurrence to an inline marker carrying
`os.path.normpath(os.path.join(readme_dir, rel_path))`, collapses runs of
3+ newlines (`re.sub(r"\n{3,}", "\n\n", ...)`), strips each page and drops
pages that are empty afterwards.

The fixed regexes are realised directly as scanners.  Where a greedy
`\s*`/`\s+` is followed by a literal whose first character is not
whitespace (`-->`/`lesson:page`/`lesson:end`), maximal munch is equivalent
to the backtracking semantics, since giving back a whitespace character
would place it where the non-whitespace literal character is required. -/

/-- `\s*-->` with maximal-munch whitespace; returns the remainder. -/
def matchWsArrow (s : Str) : Option Str :=
  if "-->".toList.isPrefixOf (s.dropWhile isPyWs) then
    some ((s.dropWhile isPyWs).drop 3)
  else none

/-- `(.*?)\s*-->`: the non-greedy capture first tries to terminate at the
current position, and otherwise consumes one character, which `.` forbids
from being a newline.  Returns (capture, remainder). -/
def captureTitle (s : Str) : Option (Str × Str) :=
  match matchWsArrow s with
  | some rest => some ([], rest)
  | none =>
    match s with
    | [] => none
    | c :: cs =>
      if c = '\n' then none
      else (captureTitle cs).map fun tr => (c :: tr.1, tr.2)
termination_by s.length

/-- Match `PAGE_MARKER = <!--\s*lesson:page\s+(.*?)\s*-->` at the start of
`s`; returns (captured title, remainder after the match). -/
def matchPageAt (s : Str) : Option (Str × Str) :=
  if "<!--".toList.isPrefixOf s then
    if "lesson:page".toList.isPrefixOf ((s.drop 4).dropWhile isPyWs) then
      match ((s.drop 4).dropWhile isPyWs).drop 11 with
      | [] => none
      | c :: cs => if isPyWs c then captureTitle (cs.dropWhile isPyWs) else none
    else none
  else none

/-- Match `END_MARKER = <!--\s*lesson:end\s*-->` at the start of `s`. -/
def matchEndAt (s : Str) : Option Str :=
  if "<!--".toList.isPrefixOf s then
    if "lesson:end".toList.isPrefixOf ((s.drop 4).dropWhile isPyWs) then
      matchWsArrow (((s.drop 4).dropWhile isPyWs).drop 10)
    else none
  else none

/-- `END_MARKER.search` + `text[:end_match.start()]`: keep the text before
the leftmost end-marker match (all of it when there is none). -/
def truncateAtEnd : Str → Str
  | [] => []
  | c :: cs => if (matchEndAt (c :: cs)).isSome then [] else c :: truncateAtEnd cs

/-- Leftmost `PAGE_MARKER` match: (text before it, captured title,
remainder after it). -/
def findPage (s : Str) : Option (Str × Str × Str) :=
  match matchPageAt s with
  | some (t, r) => some ([], t, r)
  | none =>
    match s with
    | [] => none
    | c :: cs => (findPage cs).map fun x => (c :: x.1, x.2)
termination_by s.length

theorem matchWsArrow_length {s r : Str} (h : matchWsArrow s = some r) :
    r.length + 3 ≤ s.length := by
  unfold matchWsArrow at h
  have hsuf : (s.dropWhile isPyWs).length ≤ s.length :=
    (List.dropWhile_suffix (l := s) isPyWs).length_le
  split at h
  · rename_i hp
    have hlen : 3 ≤ (s.dropWhile isPyWs).length := by
      have := (List.isPrefixOf_iff_prefix.mp hp).length_le
      simpa using this
    cases h
    simp [List.length_drop]
    omega
  · exact absurd h (by simp)

theorem captureTitle_length {s t r : Str} (h : captureTitle s = some (t, r)) :
    r.length + 3 ≤ s.length := by
  induction s generalizing t r with
  | nil =>
    rw [captureTitle] at h
    split at h
    · rename_i rest hw
      cases h
      have := matchWsArrow_length hw
      simpa using this
    · simp at h
  | cons c cs ih =>
    rw [captureTitle] at h
    split at h
    · rename_i rest hw
      cases h
      have := matchWsArrow_length hw
      simpa using this
    · split at h
      · exact absurd h (by simp)
      · rcases hct : captureTitle cs with _ | ⟨t', r''⟩ <;> simp [hct] at h
        obtain ⟨-, hr⟩ := h
        subst hr
        have := ih hct
        simp
        omega

theorem matchPageAt_length {s t r : Str} (h : matchPageAt s = some (t, r)) :
    r.length < s.length := by
  unfold matchPageAt at h
  split at h
  case isFalse => exact absurd h (by simp)
  rename_i h4
  split at h
  case isFalse => exact absurd h (by simp)
  rename_i hl
  have hs1le : ((s.drop 4).dropWhile isPyWs).length ≤ s.length - 4 := by
    have := (List.dropWhile_suffix (l := s.drop 4) isPyWs).length_le
    simpa [List.length_drop] using this
  have h4le : 4 ≤ s.length := by
    have := (List.isPrefixOf_iff_prefix.mp h4).length_le
    simpa using this
  split at h
  case h_1 => exact absurd h (by simp)
  rename_i c cs hdrop
  split at h
  case isFalse => exact absurd h (by simp)
  have hcap := captureTitle_length h
  have hdw : (cs.dropWhile isPyWs).length ≤ cs.length :=
    (List.dropWhile_suffix (l := cs) isPyWs).length_le
  have hcs : cs.length + 11 ≤ ((s.drop 4).dropWhile isPyWs).length := by
    have hlen : (((s.drop 4).dropWhile isPyWs).drop 11).length =
        ((s.drop 4).dropWhile isPyWs).length - 11 := List.length_drop ..
    rw [hdrop] at hlen
    have h11 : 11 ≤ ((s.drop 4).dropWhile isPyWs).length := by
      have := (List.isPrefixOf_iff_prefix.mp hl).length_le
      simpa using this
    simp at hlen
    omega
  omega

theorem findPage_length {s p t r : Str} (h : findPage s = some (p, t, r)) :
    r.length < s.length := by
  induction s generalizing p t r with
  | nil =>
    rw [findPage] at h
    split at h
    · rename_i t' r' hm
      cases h
      have := matchPageAt_length hm
      simp at this
    · simp at h
  | cons c cs ih =>
    rw [findPage] at h
    split at h
    · rename_i t' r' hm
      cases h
      have := matchPageAt_length hm
      simpa using this
    · rcases hf : findPage cs with _ | ⟨p', t'', r''⟩ <;> simp [hf] at h
      obtain ⟨-, -, hr⟩ := h
      subst hr
      have := ih hf
      simp
      omega

/-- `PAGE_MARKER.split(text)`: the pieces between matches interleaved with
the captured titles, `[before₁, title₁, between₁₂, title₂, ..., after_last]`. -/
def pageSplit (s : Str) : List Str :=
  match h : findPage s with
  | none => [s]
  | some (p, t, r) => p :: t :: pageSplit r
termination_by s.length
decreasing_by exact findPage_length h

/-! ### Image rewriting and path resolution -/

/-- A `(.*?)` capture terminated by the single literal character `stop`
(used for `\]` after the alt text would be wrong — see `imageCapture1` —
but is exactly right for the final `\)` of `IMAGE_LINE`, whose match ends
there).  The capture cannot contain a newline. -/
def captureUntil (stop : Char) : Str → Option (Str × Str)
  | [] => none
  | c :: cs =>
    if c = stop then some ([], cs)
    else if c = '\n' then none
    else (captureUntil stop cs).map fun x => (c :: x.1, x.2)

/-- The backtracking tail `(.*?)\]\((.*?)\)` of
`IMAGE_LINE = !\[(.*?)\]\((.*?)\)`: the alt capture ends at the first `](`
that is followed by a complete `(.*?)\)` match; a `](` with no closing
parenthesis on the same line is absorbed into the alt capture, as the
regex engine's backtracking does.  Returns (alt, path, remainder). -/
def imageCapture1 : Str → Option (Str × Str × Str)
  | [] => none
  | c :: cs =>
    if "](".toList.isPrefixOf (c :: cs) then
      match captureUntil ')' (cs.drop 1) with
      | some (p, rest) => some ([], p, rest)
      | none => (imageCapture1 cs).map fun x => (c :: x.1, x.2)
    else if c = '\n' then none
    else (imageCapture1 cs).map fun x => (c :: x.1, x.2)

/-- Match `IMAGE_LINE = !\[(.*?)\]\((.*?)\)` at the start of `s`. -/
def matchImageAt (s : Str) : Option (Str × Str × Str) :=
  if "![".toList.isPrefixOf s then imageCapture1 (s.drop 2) else none

/-- `posixpath.join(a, b)` (two arguments). -/
def joinPath (a b : Str) : Str :=
  if b.head? = some '/' then b
  else if a = [] ∨ a.getLast? = some '/' then a ++ b
  else a ++ '/' :: b

/-- One step of `posixpath.normpath`'s component loop: skip `''` and `'.'`;
keep a component unless it is a `..` that can pop a previous non-`..`
component (with `..` kept at the start of relative paths and dropped at
the root). -/
def normStep (initialSlashes : Nat) (acc : List Str) (comp : Str) : List Str :=
  if comp = [] ∨ comp = ['.'] then acc
  else if comp ≠ ['.', '.'] ∨ (initialSlashes = 0 ∧ acc = []) ∨
      (acc ≠ [] ∧ acc.getLast? = some ['.', '.']) then
    acc ++ [comp]
  else if acc ≠ [] then acc.dropLast
  else acc

/-- `posixpath.normpath`. -/
def normpath (p : Str) : Str :=
  if p = [] then ['.']
  else
    let initialSlashes : Nat :=
      if "///".toList.isPrefixOf p then 1
      else if "//".toList.isPrefixOf p then 2
      else if p.head? = some '/' then 1
      else 0
    let comps := p.splitOn '/'
    let newComps := comps.foldl (normStep initialSlashes) []
    let out := List.replicate initialSlashes '/' ++ List.intercalate ['/'] newComps
    if out = [] then ['.'] else out

/-- The sentinel delimiting inline image markers (`IMG_DELIM = "\x00"`). -/
def IMG_DELIM : Char := '\x00'

/-- `_image_marker(alt, abs_path)`:
`f"{IMG_DELIM}IMG[{alt}]({abs_path}){IMG_DELIM}"`. -/
def image_marker (alt absPath : Str) : Str :=
  IMG_DELIM :: ("IMG[".toList ++ alt ++ "](".toList ++ absPath ++ [')', IMG_DELIM])

theorem captureUntil_length {stop : Char} {s t r : Str}
    (h : captureUntil stop s = some (t, r)) : r.length < s.length := by
  induction s generalizing t r with
  | nil => simp [captureUntil] at h
  | cons c cs ih =>
    rw [captureUntil] at h
    split at h
    · cases h
      simp
    · split at h
      · exact absurd h (by simp)
      · rcases hct : captureUntil stop cs with _ | ⟨t', r''⟩ <;> simp [hct] at h
        obtain ⟨-, hr⟩ := h
        subst hr
        have := ih hct
        simp
        omega

theorem imageCapture1_length {s a p r : Str} (h : imageCapture1 s = some (a, p, r)) :
    r.length < s.length := by
  induction s generalizing a p r with
  | nil => simp [imageCapture1] at h
  | cons c cs ih =>
    rw [imageCapture1] at h
    split at h
    · split at h
      · rename_i pc rest hcu
        cases h
        have := captureUntil_length hcu
        have : (cs.drop 1).length ≤ cs.length := by simp
        simp
        omega
      · rcases hic : imageCapture1 cs with _ | ⟨a', p', r''⟩ <;> simp [hic] at h
        obtain ⟨-, -, hr⟩ := h
        subst hr
        have := ih hic
        simp
        omega
    · split at h
      · exact absurd h (by simp)
      · rcases hic : imageCapture1 cs with _ | ⟨a', p', r''⟩ <;> simp [hic] at h
        obtain ⟨-, -, hr⟩ := h
        subst hr
        have := ih hic
        simp
        omega

theorem matchImageAt_length {s a p r : Str} (h : matchImageAt s = some (a, p, r)) :
    r.length < s.length := by
  unfold matchImageAt at h
  split at h
  · rename_i hp
    have h2 : 2 ≤ s.length := by
      have := (List.isPrefixOf_iff_prefix.mp hp).length_le
      simpa using this
    have := imageCapture1_length h
    simp at this
    omega
  · exact absurd h (by simp)

/-- `IMAGE_LINE.sub(_replace_image, content)`: every match is replaced by
`_image_marker(alt, os.path.normpath(os.path.join(readme_dir, rel_path)))`,
scanning left to right and resuming after each match. -/
def imageSub (dir : Str) (s : Str) : Str :=
  match h : matchImageAt s with
  | some (alt, rel, rest) =>
    image_marker alt (normpath (joinPath dir rel)) ++ imageSub dir rest
  | none =>
    match s with
    | [] => []
    | c :: cs => c :: imageSub dir cs
termination_by s.length
decreasing_by
  · exact matchImageAt_length h
  · simp

/-- `re.sub(r"\n{3,}", "\n\n", content)`: a maximal run of 3 or more
newlines is replaced by exactly two; shorter runs are kept. -/
def collapseBlank : Str → Str
  | [] => []
  | c :: cs =>
    if c = '\n' then
      if 3 ≤ 1 + (cs.takeWhile (· = '\n')).length then
        '\n' :: '\n' :: collapseBlank (cs.dropWhile (· = '\n'))
      else c :: collapseBlank cs
    else c :: collapseBlank cs
termination_by s => s.length
decreasing_by
  · have := (List.dropWhile_suffix (l := cs) (fun c => c = '\n')).length_le
    simp at *
    omega
  · simp
  · simp

/-- A parsed lesson page (`{"title": ..., "content": ...}`). -/
structure Page : Type where
  title : Str
  content : Str
deriving DecidableEq

/-- The per-page content pipeline of `parse_readme`: image rewriting, blank
collapse, strip. -/
def process_content (dir : Str) (content : Str) : Str :=
  strip (collapseBlank (imageSub dir content))

/-- The page-assembly loop of `parse_readme` over `parts[1:]`
(`for i in range(1, len(parts), 2)`): each (title, content) pair becomes a
page with the stripped title, unless the processed content is empty.  A
trailing title with no following part gets content `""`. -/
def buildPages (dir : Str) : List Str → List Page
  | [] => []
  | [t] =>
    let content := process_content dir []
    if content = [] then [] else [⟨strip t, content⟩]
  | t :: c :: rest =>
    let content := process_content dir c
    (if content = [] then [] else [⟨strip t, content⟩]) ++ buildPages dir rest

/-- `parse_readme` applied to already-read file text (the part of the
function after `f.read()`, with `dir = os.path.dirname(os.path.abspath(readme_path))`). -/
def parse_readme_text (dir : Str) (text : Str) : List Page :=
  if (pageSplit (truncateAtEnd text)).length < 3 then []
  else buildPages dir ((pageSplit (truncateAtEnd text)).drop 1)

/-- What the filesystem yields for the README path: missing, or a file
with the given text. -/
inductive FileInput : Type
  | missing : FileInput
  | contents (text : Str) : FileInput

/-- `parse_readme`: empty result for a missing file, otherwise the text
pipeline. -/
def parse_readme (dir : Str) : FileInput → List Page
  | .missing => []
  | .contents text => parse_readme_text dir text

/-! ## Page segmentation (`learn/ui.py`)

`_IMG_MARKER = re.escape(IMG_DELIM) + r"IMG\[(.*?)\]\((.*?)\)" + re.escape(IMG_DELIM)`
and `_split_page_segments` splits a page's raw content on it, yielding
parts that alternate text, alt, path (indices ≡ 0, 1, 2 mod 3). -/

/-- The backtracking tail `(.*?)\)\x00` of `_IMG_MARKER`: the path capture
ends at the first `)` immediately followed by the delimiter. -/
def captureToSeq (t1 t2 : Char) : Str → Option (Str × Str)
  | c :: d :: r =>
    if c = t1 ∧ d = t2 then some ([], r)
    else if c = '\n' then none
    else (captureToSeq t1 t2 (d :: r)).map fun x => (c :: x.1, x.2)
  | _ => none

/-- The backtracking tail `(.*?)\]\((.*?)\)\x00` of `_IMG_MARKER`: the alt
capture ends at the first `](` that is followed by a complete
`(.*?)\)\x00` match, as in `imageCapture1`. -/
def imgCapture1 : Str → Option (Str × Str × Str)
  | [] => none
  | c :: cs =>
    if "](".toList.isPrefixOf (c :: cs) then
      match captureToSeq ')' IMG_DELIM (cs.drop 1) with
      | some (p, rest) => some ([], p, rest)
      | none => (imgCapture1 cs).map fun x => (c :: x.1, x.2)
    else if c = '\n' then none
    else (imgCapture1 cs).map fun x => (c :: x.1, x.2)

/-- Match `_IMG_MARKER` at the start of `s`; returns (alt, path, rest). -/
def matchImgMarkerAt (s : Str) : Option (Str × Str × Str) :=
  if (IMG_DELIM :: "IMG[".toList).isPrefixOf s then imgCapture1 (s.drop 5) else none

/-- Leftmost `_IMG_MARKER` match: (text before it, alt, path, remainder). -/
def findImgMarker (s : Str) : Option (Str × Str × Str × Str) :=
  match matchImgMarkerAt s with
  | some (a, p, r) => some ([], a, p, r)
  | none =>
    match s with
    | [] => none
    | c :: cs => (findImgMarker cs).map fun x => (c :: x.1, x.2)
termination_by s.length

theorem captureToSeq_length {t1 t2 : Char} {s t r : Str}
    (h : captureToSeq t1 t2 s = some (t, r)) : r.length < s.length := by
  induction s generalizing t r with
  | nil => simp [captureToSeq] at h
  | cons c cs ih =>
    rcases cs with _ | ⟨d, ds⟩
    · simp [captureToSeq] at h
    · rw [captureToSeq] at h
      split at h
      · simp only [Option.some.injEq, Prod.mk.injEq] at h
        obtain ⟨-, rfl⟩ := h
        simp
        omega
      · split at h
        · exact absurd h (by simp)
        · rcases hct : captureToSeq t1 t2 (d :: ds) with _ | ⟨t', r''⟩ <;>
            simp [hct] at h
          obtain ⟨-, rfl⟩ := h
          have := ih hct
          simp at this ⊢
          omega

theorem imgCapture1_length {s a p r : Str} (h : imgCapture1 s = some (a, p, r)) :
    r.length < s.length := by
  induction s generalizing a p r with
  | nil => simp [imgCapture1] at h
  | cons c cs ih =>
    rw [imgCapture1] at h
    split at h
    · split at h
      · rename_i pc rest hcu
        cases h
        have := captureToSeq_length hcu
        have : (cs.drop 1).length ≤ cs.length := by simp
        simp
        omega
      · rcases hic : imgCapture1 cs with _ | ⟨a', p', r''⟩ <;> simp [hic] at h
        obtain ⟨-, -, hr⟩ := h
        subst hr
        have := ih hic
        simp
        omega
    · split at h
      · exact absurd h (by simp)
      · rcases hic : imgCapture1 cs with _ | ⟨a', p', r''⟩ <;> simp [hic] at h
        obtain ⟨-, -, hr⟩ := h
        subst hr
        have := ih hic
        simp
        omega

theorem matchImgMarkerAt_length {s a p r : Str}
    (h : matchImgMarkerAt s = some (a, p, r)) : r.length < s.length := by
  unfold matchImgMarkerAt at h
  split at h
  · rename_i hp
    have h5 : 5 ≤ s.length := by
      have := (List.isPrefixOf_iff_prefix.mp hp).length_le
      simpa using this
    have := imgCapture1_length h
    simp at this
    omega
  · exact absurd h (by simp)

theorem findImgMarker_length {s t a p r : Str}
    (h : findImgMarker s = some (t, a, p, r)) : r.length < s.length := by
  induction s generalizing t a p r with
  | nil =>
    rw [findImgMarker] at h
    split at h
    · rename_i a' p' r' hm
      cases h
      have := matchImgMarkerAt_length hm
      simp at this
    · simp at h
  | cons c cs ih =>
    rw [findImgMarker] at h
    split at h
    · rename_i a' p' r' hm
      cases h
      have := matchImgMarkerAt_length hm
      simp at this ⊢
      omega
    · rcases hf : findImgMarker cs with _ | ⟨t', a', p', r''⟩ <;> simp [hf] at h
      obtain ⟨-, -, -, hr⟩ := h
      subst hr
      have := ih hf
      simp
      omega

/-- `_IMG_MARKER.split(raw_content)` — with two capture groups, the parts
list alternates text, alt, path (length ≡ 1 mod 3). -/
def imgSplitParts (s : Str) : List Str :=
  match h : findImgMarker s with
  | none => [s]
  | some (t, a, p, r) => t :: a :: p :: imgSplitParts r
termination_by s.length
decreasing_by exact findImgMarker_length h

/-- A `(kind, value)` segment as returned by `_split_page_segments`. -/
inductive Segment : Type
  | text (s : Str) : Segment
  | image (alt path : Str) : Segment
deriving DecidableEq

/-- Is this a text segment? -/
def Segment.isText : Segment → Bool
  | .text _ => true
  | .image _ _ => false

/-- The index-mod-3 loop of `_split_page_segments`: part 0 is stripped text
(dropped when empty), part 1 is an alt whose path is the following part
(`""` when absent). -/
def segLoop : List Str → List Segment
  | [] => []
  | txt :: rest =>
    (if strip txt ≠ [] then [Segment.text (strip txt)] else []) ++
      match rest with
      | alt :: path :: rest' => Segment.image alt path :: segLoop rest'
      | [alt] => [Segment.image alt []]
      | [] => []

/-- `_split_page_segments(raw_content)`. -/
def split_page_segments (raw : Str) : List Segment :=
  segLoop (imgSplitParts raw)

/-- The raw content of a page containing the given segments in order: text
segments literally, image segments as the inline markers the parser
embedded (`_image_marker`). -/
def renderSegments : List Segment → Str
  | [] => []
  | .text t :: rest => t ++ renderSegments rest
  | .image a p :: rest => image_marker a p ++ renderSegments rest

/-! ## Claim C2: `update_streak` -/

/-- C2: for every progress document, `update_streak` compares today's date
to `last_active`: equal to today → the streak is returned unchanged (and a
second call on the same day returns the same streak, never
double-incrementing); equal to yesterday → streak incremented by one; any
other prior value including none → streak set to 1; after the call
`last_active` equals today. -/
theorem update_streak_spec (today yesterday : String) (p : ProgressDoc)
    (hne : today ≠ yesterday) :
    (p.last_active = some today → update_streak today yesterday p = (p, p.streak)) ∧
    (p.last_active = some yesterday →
      update_streak today yesterday p =
        ({ p with streak := p.streak + 1, last_active := some today }, p.streak + 1)) ∧
    (p.last_active ≠ some today → p.last_active ≠ some yesterday →
      update_streak today yesterday p =
        ({ p with streak := 1, last_active := some today }, 1)) ∧
    (p.last_active = some today ∨
      (update_streak today yesterday p).1.last_active = some today) ∧
    update_streak today yesterday (update_streak today yesterday p).1 =
      ((update_streak today yesterday p).1, (update_streak today yesterday p).2) := by
  by_cases h1 : p.last_active = some today
  · have hres : update_streak today yesterday p = (p, p.streak) := by
      unfold update_streak
      simp [h1]
    refine ⟨fun _ => hres,
      fun h2 => absurd (Option.some.inj (h1 ▸ h2)) hne,
      fun h2 _ => absurd h1 h2, Or.inl h1, ?_⟩
    rw [hres]
    unfold update_streak
    simp [h1]
  · by_cases h2 : p.last_active = some yesterday
    · have hres : update_streak today yesterday p =
          ({ p with streak := p.streak + 1, last_active := some today },
            p.streak + 1) := by
        unfold update_streak
        simp [h1, h2, Ne.symm hne]
      refine ⟨fun h => absurd h h1, fun _ => hres, fun _ h => absurd h2 h,
        Or.inr (by rw [hres]), ?_⟩
      rw [hres]
      unfold update_streak
      simp
    · have hres : update_streak today yesterday p =
          ({ p with streak := 1, last_active := some today }, 1) := by
        unfold update_streak
        simp [h1, h2]
      refine ⟨fun h => absurd h h1, fun h => absurd h h2, fun _ _ => hres,
        Or.inr (by rw [hres]), ?_⟩
      rw [hres]
      unfold update_streak
      simp

/-- Closed witness for `update_streak_spec`: a concrete run through the
incrementing branch. -/
theorem update_streak_spec_witness :
    ("2026-10-12" : String) ≠ "2026-10-11" ∧
    update_streak "2026-10-12" "2026-10-11" ⟨[], some "2026-10-11", 4⟩ =
      (⟨[], some "2026-10-12", 5⟩, 5) := by
  refine ⟨by decide, ?_⟩
  have h := (update_streak_spec "2026-10-12" "2026-10-11"
    ⟨[], some "2026-10-11", 4⟩ (by decide)).2.1 rfl
  exact h

/-! ## Claim C10: frame properties of the mark operations -/

theorem lookup_dictInsert_self {α : Type} (m : Dict α) (k : String) (v : α) :
    (dictInsert m k v).lookup k = some v := by
  induction m with
  | nil => simp [dictInsert, List.lookup]
  | cons kv rest ih =>
    obtain ⟨k', v'⟩ := kv
    rw [dictInsert]
    by_cases h : k' = k
    · subst h
      simp [List.lookup]
    · rw [if_neg h, List.lookup]
      have hb : (k == k') = false := beq_eq_false_iff_ne.mpr (Ne.symm h)
      simp [hb, ih]

theorem lookup_dictInsert_ne {α : Type} (m : Dict α) {k k' : String} (v : α)
    (h : k' ≠ k) : (dictInsert m k v).lookup k' = m.lookup k' := by
  have hb : (k' == k) = false := beq_eq_false_iff_ne.mpr h
  induction m with
  | nil => simp [dictInsert, List.lookup, hb]
  | cons kv rest ih =>
    obtain ⟨k'', v''⟩ := kv
    rw [dictInsert]
    by_cases hk : k'' = k
    · subst hk
      simp [List.lookup, hb]
    · rw [if_neg hk, List.lookup, List.lookup]
      rcases hbk : k' == k'' with _ | _
      · simpa [hbk] using ih
      · simp [hbk]

theorem lookup_dictSetdefault_self {α : Type} (m : Dict α) (k : String) (v : α) :
    (dictSetdefault m k v).lookup k = some ((m.lookup k).getD v) := by
  unfold dictSetdefault
  rcases h : m.lookup k with _ | w
  · simp [h, List.lookup_append, h, List.lookup]
  · simp [h]

theorem lookup_dictSetdefault_ne {α : Type} (m : Dict α) {k k' : String} (v : α)
    (h : k' ≠ k) : (dictSetdefault m k v).lookup k' = m.lookup k' := by
  have hb : (k' == k) = false := beq_eq_false_iff_ne.mpr h
  unfold dictSetdefault
  split
  · rfl
  · rcases hl : m.lookup k' with _ | w
    · simp [List.lookup_append, hl, List.lookup, hb]
    · simp [List.lookup_append, hl]

theorem set_module_field_courses_lookup (p : ProgressDoc) (c m : String)
    (f : ModuleEntry → ModuleEntry) :
    (set_module_field p c m f).courses.lookup c =
      some (dictInsert (dictSetdefault ((p.courses.lookup c).getD []) m emptyModule) m
        (f (get_module_progress p c m))) := by
  unfold set_module_field ensure_module get_module_progress
  simp only [lookup_dictInsert_self, lookup_dictSetdefault_self, Option.getD_some]

/-- C10 (frame/effect of `mark_lesson`, `mark_quiz`, `mark_challenge`):
each operation creates the nested course/module entry if needed and sets
exactly its own field of `courses[c][m]`; the other two fields of that
entry, every other module entry, every other course entry, and the
top-level `streak` and `last_active` are unchanged. -/
theorem mark_operations_frame (p : ProgressDoc) (c m c' m' : String)
    (score total : Nat) (h : ¬(c' = c ∧ m' = m)) :
    (get_module_progress (mark_lesson p c m) c m =
      { get_module_progress p c m with lesson := some true }) ∧
    (get_module_progress (mark_quiz p c m score total) c m =
      { get_module_progress p c m with
          quiz_score := some (toString score ++ "/" ++ toString total) }) ∧
    (get_module_progress (mark_challenge p c m) c m =
      { get_module_progress p c m with challenge := some true }) ∧
    (get_module_progress (mark_lesson p c m) c' m' = get_module_progress p c' m') ∧
    (get_module_progress (mark_quiz p c m score total) c' m' =
      get_module_progress p c' m') ∧
    (get_module_progress (mark_challenge p c m) c' m' = get_module_progress p c' m') ∧
    ((mark_lesson p c m).streak = p.streak ∧
      (mark_lesson p c m).last_active = p.last_active) ∧
    ((mark_quiz p c m score total).streak = p.streak ∧
      (mark_quiz p c m score total).last_active = p.last_active) ∧
    ((mark_challenge p c m).streak = p.streak ∧
      (mark_challenge p c m).last_active = p.last_active) := by
  have hself : ∀ f : ModuleEntry → ModuleEntry,
      get_module_progress (set_module_field p c m f) c m =
        f (get_module_progress p c m) := by
    intro f
    unfold get_module_progress
    rw [set_module_field_courses_lookup]
    simp [lookup_dictInsert_self, get_module_progress]
  have hother : ∀ f : ModuleEntry → ModuleEntry,
      get_module_progress (set_module_field p c m f) c' m' =
        get_module_progress p c' m' := by
    intro f
    by_cases hc : c' = c
    · subst hc
      have hm : m' ≠ m := fun hm => h ⟨rfl, hm⟩
      unfold get_module_progress
      rw [set_module_field_courses_lookup]
      simp only [Option.getD_some]
      rw [lookup_dictInsert_ne _ _ hm, lookup_dictSetdefault_ne _ _ hm]
    · unfold get_module_progress set_module_field ensure_module
      simp only [lookup_dictInsert_ne _ _ hc, lookup_dictSetdefault_ne _ _ hc]
  have hframe : ∀ f : ModuleEntry → ModuleEntry,
      (set_module_field p c m f).streak = p.streak ∧
        (set_module_field p c m f).last_active = p.last_active := by
    intro f
    unfold set_module_field ensure_module
    exact ⟨rfl, rfl⟩
  exact ⟨hself _, hself _, hself _, hother _, hother _, hother _,
    hframe _, hframe _, hframe _⟩

/-- Closed witness for `mark_operations_frame` at concrete inputs. -/
theorem mark_operations_frame_witness :
    ¬(("other" : String) = "course1" ∧ ("m2" : String) = "m1") ∧
    get_module_progress
      (mark_lesson ⟨[("course1", [("m1", ⟨none, some "2/3", none⟩)])], some "d", 7⟩
        "course1" "m1") "course1" "m1" =
      ⟨some true, some "2/3", none⟩ := by
  refine ⟨by decide, ?_⟩
  have h := (mark_operations_frame
    ⟨[("course1", [("m1", ⟨none, some "2/3", none⟩)])], some "d", 7⟩
    "course1" "m1" "other" "m2" 0 0 (by decide)).1
  rw [h]
  decide

/-! ## Claim C8: `load_progress` (corrected) -/

/-- C8 counterexample: the claim says `load` never raises, but a file
containing valid non-object JSON (e.g. `[1, 2]`) parses fine and then
crashes at `data.setdefault` with an uncaught `AttributeError`. -/
theorem load_progress_never_raises_cex :
    ¬ ∀ i : LoadInput, ∃ d : ProgressDoc, load_progress i = .ok d := by
  intro h
  obtain ⟨d, hd⟩ := h (.parsed .jnonobj)
  simp [load_progress] at hd

/-- C8 (amended): an absent file and contents that fail to parse as JSON
both yield exactly the default document; contents parsing to a JSON
*object* have each missing top-level key backfilled with its default while
present keys are kept; contents parsing to a non-object JSON value raise
(`AttributeError` at `data.setdefault`, uncaught). -/
theorem load_progress_amended :
    load_progress .absent = .ok default_progress ∧
    load_progress .unreadable = .ok default_progress ∧
    (∀ r : RawDoc,
      (∀ cs, r.courses = some cs →
        ∃ d, load_progress (.parsed (.jobj r)) = .ok d ∧ d.courses = cs) ∧
      (r.courses = none →
        ∃ d, load_progress (.parsed (.jobj r)) = .ok d ∧ d.courses = []) ∧
      (∀ la, r.last_active = some la →
        ∃ d, load_progress (.parsed (.jobj r)) = .ok d ∧ d.last_active = la) ∧
      (r.last_active = none →
        ∃ d, load_progress (.parsed (.jobj r)) = .ok d ∧ d.last_active = none) ∧
      (∀ st, r.streak = some st →
        ∃ d, load_progress (.parsed (.jobj r)) = .ok d ∧ d.streak = st) ∧
      (r.streak = none →
        ∃ d, load_progress (.parsed (.jobj r)) = .ok d ∧ d.streak = 0)) ∧
    load_progress (.parsed .jnonobj) = .error () := by
  refine ⟨rfl, rfl, fun r => ?_, rfl⟩
  exact ⟨fun cs hcs => ⟨_, rfl, by simp [hcs]⟩,
    fun hcs => ⟨_, rfl, by simp [hcs]⟩,
    fun la hla => ⟨_, rfl, by simp [hla]⟩,
    fun hla => ⟨_, rfl, by simp [hla]⟩,
    fun st hst => ⟨_, rfl, by simp [hst]⟩,
    fun hst => ⟨_, rfl, by simp [hst]⟩⟩

/-! ## Claim C5: classification of completed runs (corrected) -/

/-- The error selection as the claim words it: the (trimmed) stderr is
used whenever stderr itself is nonempty, the (trimmed) stdout otherwise.
(Stated from the spec's words for comparison with `classify`, which tests
emptiness of the *stripped* stderr.) -/
def classify_claimed (returncode : Int) (stdout stderr : Str) : ValidationResult :=
  if returncode = 0 then .passed (strip stdout)
  else .failed (truncate_error (if stderr ≠ [] then strip stderr else strip stdout))

/-- C5 counterexample: with exit code 1, stderr `" "` (nonempty but
whitespace-only) and stdout `"boom"`, the code falls back to stdout —
`result.stderr.strip() or result.stdout.strip()` tests the *stripped*
stderr — while the claim as stated selects the trimmed stderr, i.e. `""`. -/
theorem classify_stderr_selection_cex :
    classify 1 "boom".toList " ".toList = .failed "boom".toList ∧
    classify_claimed 1 "boom".toList " ".toList = .failed [] := by
  constructor <;> decide

/-- C5 (amended): for a completed run, exit code zero yields
`Passed(stdout.strip())`; a nonzero exit code yields `Failed` carrying the
trimmed stderr when the *trimmed* stderr is nonempty and otherwise the
trimmed stdout, truncated to 800 characters with a `"\n..."` marker when
longer; and this is exactly what `_validate_challenge` reports when no
placeholders remain. -/
theorem classify_spec (rc : Int) (out err : Str) (code : Str)
    (hp : check_placeholders code = false) :
    (rc = 0 → classify rc out err = .passed (strip out)) ∧
    (rc ≠ 0 → strip err ≠ [] →
      classify rc out err = .failed (truncate_error (strip err))) ∧
    (rc ≠ 0 → strip err = [] →
      classify rc out err = .failed (truncate_error (strip out))) ∧
    (∀ e : Str, e.length ≤ 800 → truncate_error e = e) ∧
    (∀ e : Str, 800 < e.length →
      truncate_error e = e.take 800 ++ "\n...".toList) ∧
    validate_challenge code (.completed rc out err) = classify rc out err := by
  refine ⟨fun h0 => by simp [classify, h0], fun hn he => ?_, fun hn he => ?_,
    fun e he => ?_, fun e he => ?_, ?_⟩
  · simp [classify, hn, he]
  · simp [classify, hn, he]
  · simp [truncate_error]
    omega
  · simp [truncate_error, he]
  · simp [validate_challenge, hp]

/-- Closed witness for `classify_spec`: failing run with nonempty stderr. -/
theorem classify_spec_witness :
    check_placeholders "x = 1\n".toList = false ∧
    (1 : Int) ≠ 0 ∧ strip " err ".toList ≠ [] ∧
    classify 1 "out".toList " err ".toList = .failed "err".toList := by
  refine ⟨by decide, by decide, by decide, ?_⟩
  have h := ((classify_spec 1 "out".toList " err ".toList "x = 1\n".toList
    (by decide)).2.1) (by decide) (by decide)
  exact h.trans (by decide)

/-! ## Claim C1: placeholder gate of `_validate_challenge` -/

theorem countOccs_pos_iff {pat : Str} (hpat : pat ≠ []) (s : Str) :
    0 < countOccs pat s ↔ hasSubstr pat s = true := by
  unfold countOccs
  induction s with
  | nil => simp [countOccsAux, hasSubstr, List.isEmpty_iff, hpat]
  | cons c cs ih =>
    rw [countOccsAux, hasSubstr]
    by_cases h : pat.isPrefixOf (c :: cs)
    · simp [h]
    · simp [h, ih]

/-- C1: validation on a challenge file first strips docstrings (both quote
styles, non-greedy, multi-line) and `#` comments, then counts `XXXX___`
occurrences in what remains; a nonzero count reports `Incomplete(count)`
and the execution outcome is never consulted, while a zero count (e.g. all
placeholders inside comments/docstrings) proceeds to run the file and
classify the outcome. -/
theorem validate_placeholder_gate (code : Str) (e e' : ExecOutcome) :
    (0 < countOccs placeholder (strip_comments code) →
      validate_challenge code e =
        .incomplete (countOccs placeholder (strip_comments code)) ∧
      validate_challenge code e = validate_challenge code e') ∧
    (countOccs placeholder (strip_comments code) = 0 →
      validate_challenge code e =
        match e with
        | .timedOut => .timeout
        | .completed rc out err => classify rc out err) := by
  have hiff := @countOccs_pos_iff placeholder (by decide)
    (strip_comments code)
  constructor
  · intro hpos
    have hc : check_placeholders code = true := hiff.mp hpos
    unfold validate_challenge
    simp [check_placeholders] at hc
    simp [check_placeholders, hc]
  · intro hzero
    have hc : ¬ (hasSubstr placeholder (strip_comments code) = true) := by
      rw [← hiff]
      omega
    unfold validate_challenge
    simp only [check_placeholders]
    simp [hc]

/-- A challenge file with three placeholders in code and one inside a
docstring (the claim's example scenario). -/
def exampleChallenge : Str :=
  "\"\"\"Hint: fill XXXX___ in.\"\"\"\nx = XXXX___\ny = XXXX___ + XXXX___\n".toList

/-- Closed witness for `validate_placeholder_gate`: the example file
reports `Incomplete(3)` — the docstring occurrence is not counted — and
the reported result is the same whatever the execution outcome. -/
theorem validate_placeholder_gate_witness :
    0 < countOccs placeholder (strip_comments exampleChallenge) ∧
    validate_challenge exampleChallenge .timedOut = .incomplete 3 ∧
    validate_challenge exampleChallenge .timedOut =
      validate_challenge exampleChallenge (.completed 0 [] []) := by
  have h := (validate_placeholder_gate exampleChallenge .timedOut
    (.completed 0 [] [])).1 (by decide)
  exact ⟨by decide, h.1.trans (by decide), h.2⟩

/-! ## String-scanning helper lemmas -/

theorem hasSubstr_infix_iff {pat s : Str} : hasSubstr pat s = true ↔ pat <:+: s := by
  induction s with
  | nil => simp [hasSubstr, List.isEmpty_iff]
  | cons c cs ih =>
    rw [hasSubstr]
    simp only [Bool.or_eq_true, List.isPrefixOf_iff_prefix, ih]
    rw [List.infix_cons_iff]

theorem hasSubstr_false_of_suffix {pat s s₂ : Str} (h : hasSubstr pat s = false)
    (hs : s₂ <:+ s) : hasSubstr pat s₂ = false := by
  by_contra hne
  have : hasSubstr pat s₂ = true := by
    cases hh : hasSubstr pat s₂
    · exact absurd hh hne
    · rfl
  have : pat <:+: s := (hasSubstr_infix_iff.mp this).trans hs.isInfix
  rw [hasSubstr_infix_iff.mpr this] at h
  cases h

theorem dropWhile_append_of_ne_nil {p : Char → Bool} {s X : Str}
    (h : s.dropWhile p ≠ []) : (s ++ X).dropWhile p = s.dropWhile p ++ X := by
  induction s with
  | nil => exact absurd rfl h
  | cons c cs ih =>
    rw [List.cons_append, List.dropWhile_cons, List.dropWhile_cons]
    split
    · rename_i hp
      rw [List.dropWhile_cons, if_pos hp] at h
      exact ih h
    · rfl

/-- If `A` contains no occurrence of `<!--` and the continuation starts
with `<` or a space (or is empty), then `<!--` cannot occur at the seam
either. -/
theorem open_seam {A B : Str} (hA : hasSubstr "<!--".toList A = false)
    (hne : A ≠ []) (hB : B = [] ∨ B.head? = some '<' ∨ B.head? = some ' ') :
    "<!--".toList.isPrefixOf (A ++ B) = false := by
  have hBcases : B = [] ∨ (∃ B', B = '<' :: B') ∨ (∃ B', B = ' ' :: B') := by
    rcases hB with rfl | hB | hB
    · exact Or.inl rfl
    · rcases B with _ | ⟨x, B'⟩
      · simp at hB
      · simp at hB
        subst hB
        exact Or.inr (Or.inl ⟨B', rfl⟩)
    · rcases B with _ | ⟨x, B'⟩
      · simp at hB
      · simp at hB
        subst hB
        exact Or.inr (Or.inr ⟨B', rfl⟩)
  rw [← Bool.not_eq_true]
  intro hp
  rcases A with _ | ⟨a, A1⟩
  · exact hne rfl
  rcases A1 with _ | ⟨b, A2⟩
  · rcases hBcases with rfl | ⟨B', rfl⟩ | ⟨B', rfl⟩ <;> simp [List.isPrefixOf] at hp
  rcases A2 with _ | ⟨c, A3⟩
  · rcases hBcases with rfl | ⟨B', rfl⟩ | ⟨B', rfl⟩ <;> simp [List.isPrefixOf] at hp
  rcases A3 with _ | ⟨d, A4⟩
  · rcases hBcases with rfl | ⟨B', rfl⟩ | ⟨B', rfl⟩ <;> simp [List.isPrefixOf] at hp
  rw [hasSubstr] at hA
  simp only [List.cons_append] at hp
  simp [List.isPrefixOf] at hp hA
  tauto

/-- Same seam argument for the `![` opening of `IMAGE_LINE`, with a
continuation starting `!` (or empty). -/
theorem bang_seam {A B : Str} (hA : hasSubstr "![".toList A = false)
    (hne : A ≠ []) (hB : B = [] ∨ B.head? = some '!') :
    "![".toList.isPrefixOf (A ++ B) = false := by
  have hBcases : B = [] ∨ (∃ B', B = '!' :: B') := by
    rcases hB with rfl | hB
    · exact Or.inl rfl
    · rcases B with _ | ⟨x, B'⟩
      · simp at hB
      · simp at hB
        subst hB
        exact Or.inr ⟨B', rfl⟩
  rw [← Bool.not_eq_true]
  intro hp
  rcases A with _ | ⟨a, A1⟩
  · exact hne rfl
  rcases A1 with _ | ⟨b, A2⟩
  · rcases hBcases with rfl | ⟨B', rfl⟩ <;> simp [List.isPrefixOf] at hp
  rw [hasSubstr] at hA
  simp only [List.cons_append] at hp
  simp [List.isPrefixOf] at hp hA
  tauto

/-! ## Claim C9: image paths are resolved by `normpath(join(dir, rel))` -/

theorem matchImageAt_none_of_no_bang {s : Str}
    (h : "![".toList.isPrefixOf s = false) : matchImageAt s = none := by
  unfold matchImageAt
  rw [h]
  simp

theorem captureUntil_exact {stop : Char} {t rest : Str} (h1 : stop ∉ t)
    (h2 : '\n' ∉ t) : captureUntil stop (t ++ stop :: rest) = some (t, rest) := by
  induction t with
  | nil => simp [captureUntil]
  | cons c cs ih =>
    rw [List.cons_append, captureUntil]
    have hc1 : c ≠ stop := fun hc => h1 (hc ▸ List.mem_cons_self c cs)
    have hc2 : c ≠ '\n' := fun hc => h2 (hc ▸ List.mem_cons_self c cs)
    rw [if_neg hc1, if_neg hc2,
      ih (fun hm => h1 (List.mem_cons_of_mem c hm))
        (fun hm => h2 (List.mem_cons_of_mem c hm))]
    rfl

theorem imageCapture1_exact {alt path post : Str}
    (h1 : hasSubstr (']' :: ['(']) alt = false) (h2 : '\n' ∉ alt)
    (h3 : ')' ∉ path) (h4 : '\n' ∉ path) :
    imageCapture1 (alt ++ ']' :: '(' :: (path ++ ')' :: post)) =
      some (alt, path, post) := by
  induction alt with
  | nil =>
    rw [List.nil_append, imageCapture1]
    rw [if_pos (by simp [List.isPrefixOf])]
    simp [captureUntil_exact h3 h4]
  | cons a alt' ih =>
    rw [List.cons_append, imageCapture1]
    have hnp : "](".toList.isPrefixOf
        (a :: (alt' ++ ']' :: '(' :: (path ++ ')' :: post))) = false := by
      rcases alt' with _ | ⟨b, alt''⟩
      · simp [List.isPrefixOf]
      · rw [← Bool.not_eq_true]
        intro hp
        rw [hasSubstr] at h1
        simp only [List.cons_append] at hp
        simp [List.isPrefixOf] at hp h1
        tauto
    have ha : a ≠ '\n' := fun hc => h2 (hc ▸ List.mem_cons_self a alt')
    rw [hnp]
    simp only [Bool.false_eq_true, if_false, ite_false, if_neg ha]
    rw [ih (hasSubstr_false_of_suffix h1 (List.suffix_cons a alt'))
      (fun hm => h2 (List.mem_cons_of_mem a hm))]
    rfl

theorem matchImageAt_marker {alt path post : Str}
    (h1 : hasSubstr "](".toList alt = false) (h2 : '\n' ∉ alt)
    (h3 : ')' ∉ path) (h4 : '\n' ∉ path) :
    matchImageAt ("![".toList ++ alt ++ "](".toList ++ path ++ ')' :: post) =
      some (alt, path, post) := by
  unfold matchImageAt
  rw [if_pos]
  · have : ("![".toList ++ alt ++ "](".toList ++ path ++ ')' :: post).drop 2 =
        alt ++ ']' :: '(' :: (path ++ ')' :: post) := by
      simp
    rw [this]
    exact imageCapture1_exact h1 h2 h3 h4
  · simp [List.isPrefixOf]

theorem imageSub_cons_of_none {dir : Str} {c : Char} {cs : Str}
    (h : matchImageAt (c :: cs) = none) :
    imageSub dir (c :: cs) = c :: imageSub dir cs := by
  rw [imageSub.eq_def]
  split
  · rename_i alt rel rest heq
    rw [h] at heq
    cases heq
  · rfl

theorem imageSub_eq_of_some {dir s alt rel rest : Str}
    (h : matchImageAt s = some (alt, rel, rest)) :
    imageSub dir s =
      image_marker alt (normpath (joinPath dir rel)) ++ imageSub dir rest := by
  rw [imageSub.eq_def]
  split
  · rename_i alt' rel' rest' heq
    rw [h] at heq
    cases heq
    rfl
  · rename_i heq
    rw [h] at heq
    cases heq

theorem imageSub_append {dir A rest : Str}
    (h : ∀ A₂ ∈ A.tails, A₂ ≠ [] → matchImageAt (A₂ ++ rest) = none) :
    imageSub dir (A ++ rest) = A ++ imageSub dir rest := by
  induction A with
  | nil => simp
  | cons c cs ih =>
    have hcons : matchImageAt (c :: (cs ++ rest)) = none := by
      have := h (c :: cs)
        (by rw [List.tails_cons]; exact List.mem_cons_self _ _) (by simp)
      simpa using this
    rw [List.cons_append, imageSub_cons_of_none hcons,
      ih (fun A₂ hmem hne => h A₂
        (by rw [List.tails_cons]; exact List.mem_cons_of_mem _ hmem) hne)]
    simp

theorem imageSub_skip_of_clean {A rest : Str}
    (hA : hasSubstr "![".toList A = false)
    (hrest : rest = [] ∨ rest.head? = some '!') :
    ∀ A₂ ∈ A.tails, A₂ ≠ [] → matchImageAt (A₂ ++ rest) = none := by
  intro A₂ hmem hne
  apply matchImageAt_none_of_no_bang
  exact bang_seam (hasSubstr_false_of_suffix hA ((List.mem_tails _ _).mp hmem))
    hne hrest

/-- C9: for every image reference `![alt](P)` in a document whose
directory is `dir`, the embedded placeholder carries exactly
`normpath(join(dir, P))` — for every `P`, however many `..` segments it
contains. -/
theorem image_path_resolution (dir pre alt relPath post : Str)
    (hpre : hasSubstr "![".toList pre = false)
    (halt1 : hasSubstr "](".toList alt = false) (halt2 : '\n' ∉ alt)
    (hrel1 : ')' ∉ relPath) (hrel2 : '\n' ∉ relPath) :
    imageSub dir (pre ++ "![".toList ++ alt ++ "](".toList ++ relPath ++
        ')' :: post) =
      pre ++ image_marker alt (normpath (joinPath dir relPath)) ++
        imageSub dir post := by
  have hsplit : pre ++ "![".toList ++ alt ++ "](".toList ++ relPath ++ ')' :: post =
      pre ++ ("![".toList ++ alt ++ "](".toList ++ relPath ++ ')' :: post) := by
    simp
  rw [hsplit,
    imageSub_append (imageSub_skip_of_clean hpre (Or.inr (by simp))),
    imageSub_eq_of_some (matchImageAt_marker halt1 halt2 hrel1 hrel2)]
  simp

/-- Closed witness for `image_path_resolution`: a relative path with two
`..` segments resolves through `normpath(join(dir, P))`, and that value at
these inputs is `/x/img.png`. -/
theorem image_path_resolution_witness :
    hasSubstr "![".toList "Intro text.\n".toList = false ∧
    hasSubstr "](".toList "a diagram".toList = false ∧
    '\n' ∉ "a diagram".toList ∧
    ')' ∉ "../../x/img.png".toList ∧ '\n' ∉ "../../x/img.png".toList ∧
    normpath (joinPath "/docs/course".toList "../../x/img.png".toList) =
      "/x/img.png".toList ∧
    imageSub "/docs/course".toList ("Intro text.\n".toList ++ "![".toList ++
        "a diagram".toList ++ "](".toList ++ "../../x/img.png".toList ++
        ')' :: " end".toList) =
      "Intro text.\n".toList ++
        image_marker "a diagram".toList
          (normpath (joinPath "/docs/course".toList "../../x/img.png".toList)) ++
        imageSub "/docs/course".toList " end".toList := by
  exact ⟨by decide, by decide, by decide, by decide, by decide, by decide,
    image_path_resolution "/docs/course".toList "Intro text.\n".toList
      "a diagram".toList "../../x/img.png".toList " end".toList
      (by decide) (by decide) (by decide) (by decide) (by decide)⟩

/-! ## Claim C7: everything at and after the first end marker is dropped -/

theorem isPrefixOf_append_left {pat s X : Str} (h : pat.isPrefixOf s = true) :
    pat.isPrefixOf (s ++ X) = true := by
  rw [List.isPrefixOf_iff_prefix] at h ⊢
  exact h.trans (List.prefix_append s X)

theorem matchWsArrow_append_some {s r X : Str} (h : matchWsArrow s = some r) :
    matchWsArrow (s ++ X) = some (r ++ X) := by
  unfold matchWsArrow at h ⊢
  split at h
  · rename_i hp
    cases h
    have hne : s.dropWhile isPyWs ≠ [] := by
      intro hnil
      rw [hnil] at hp
      simp [List.isPrefixOf] at hp
    have h3 : 3 ≤ (s.dropWhile isPyWs).length := by
      have := (List.isPrefixOf_iff_prefix.mp hp).length_le
      simpa using this
    rw [dropWhile_append_of_ne_nil hne, if_pos (isPrefixOf_append_left hp),
      List.drop_append_of_le_length h3]
  · exact absurd h (by simp)

theorem matchEndAt_append_some {s r X : Str} (h : matchEndAt s = some r) :
    matchEndAt (s ++ X) = some (r ++ X) := by
  unfold matchEndAt at h ⊢
  split at h
  case isFalse => exact absurd h (by simp)
  rename_i h4
  split at h
  case isFalse => exact absurd h (by simp)
  rename_i hl
  have h4len : 4 ≤ s.length := by
    have := (List.isPrefixOf_iff_prefix.mp h4).length_le
    simpa using this
  have hs1ne : (s.drop 4).dropWhile isPyWs ≠ [] := by
    intro hnil
    rw [hnil] at hl
    simp [List.isPrefixOf] at hl
  have h10 : 10 ≤ ((s.drop 4).dropWhile isPyWs).length := by
    have := (List.isPrefixOf_iff_prefix.mp hl).length_le
    simpa using this
  rw [if_pos (isPrefixOf_append_left h4), List.drop_append_of_le_length h4len,
    dropWhile_append_of_ne_nil hs1ne, if_pos (isPrefixOf_append_left hl),
    List.drop_append_of_le_length h10]
  exact matchWsArrow_append_some h

theorem truncateAtEnd_of_none {s : Str}
    (h : ∀ p₂ ∈ s.tails, matchEndAt p₂ = none) : truncateAtEnd s = s := by
  induction s with
  | nil => rfl
  | cons c cs ih =>
    rw [truncateAtEnd, h (c :: cs) (by rw [List.tails_cons]; exact List.mem_cons_self _ _)]
    rw [ih (fun p₂ hmem => h p₂ (by rw [List.tails_cons]; exact List.mem_cons_of_mem _ hmem))]
    rfl

theorem truncateAtEnd_boundary {pre rest : Str}
    (h : ∀ p₂ ∈ pre.tails, p₂ ≠ [] → matchEndAt (p₂ ++ rest) = none)
    (hrest : (matchEndAt rest).isSome) :
    truncateAtEnd (pre ++ rest) = pre := by
  induction pre with
  | nil =>
    rcases rest with _ | ⟨c, cs⟩
    · simp [matchEndAt, List.isPrefixOf] at hrest
    · rw [List.nil_append, truncateAtEnd, if_pos hrest]
  | cons c cs ih =>
    have hcons : matchEndAt (c :: (cs ++ rest)) = none := by
      have := h (c :: cs)
        (by rw [List.tails_cons]; exact List.mem_cons_self _ _) (by simp)
      simpa using this
    rw [List.cons_append, truncateAtEnd, hcons]
    simp only [Option.isSome_none, Bool.false_eq_true, if_false, ite_false]
    rw [ih (fun p₂ hmem hne => h p₂
      (by rw [List.tails_cons]; exact List.mem_cons_of_mem _ hmem) hne)]

theorem matchEndAt_canonical (post : Str) :
    matchEndAt ("<!-- lesson:end -->".toList ++ post) = some post := by
  have h1 : "<!-- lesson:end -->".toList ++ post =
      '<' :: '!' :: '-' :: '-' :: ' ' :: 'l' :: 'e' :: 's' :: 's' :: 'o' :: 'n' ::
        ':' :: 'e' :: 'n' :: 'd' :: ' ' :: '-' :: '-' :: '>' :: post := by
    simp
  rw [h1]
  simp +decide [matchEndAt, matchWsArrow, List.isPrefixOf, List.dropWhile, isPyWs]

/-- C7: for every document containing an end marker, all text at and after
the first end marker is excluded from the parse — the pages are exactly
those of the text before the marker, whatever follows it (further page
markers and image references included).  The hypothesis states that the
rendered marker is the document's first end-marker match. -/
theorem end_marker_truncates (dir pre post : Str)
    (h : ∀ p₂ ∈ pre.tails, p₂ ≠ [] →
        matchEndAt (p₂ ++ ("<!-- lesson:end -->".toList ++ post)) = none) :
    parse_readme_text dir (pre ++ "<!-- lesson:end -->".toList ++ post) =
      parse_readme_text dir pre := by
  have hpre_none : ∀ p₂ ∈ pre.tails, matchEndAt p₂ = none := by
    intro p₂ hmem
    rcases hm : matchEndAt p₂ with _ | r
    · rfl
    · exfalso
      rcases p₂ with _ | ⟨c, cs⟩
      · simp [matchEndAt, List.isPrefixOf] at hm
      · have hsome := matchEndAt_append_some
          (X := "<!-- lesson:end -->".toList ++ post) hm
        rw [h (c :: cs) hmem (by simp)] at hsome
        cases hsome
  have htrunc : truncateAtEnd (pre ++ "<!-- lesson:end -->".toList ++ post) = pre := by
    rw [List.append_assoc]
    exact truncateAtEnd_boundary h (by rw [matchEndAt_canonical]; rfl)
  unfold parse_readme_text
  rw [htrunc, truncateAtEnd_of_none hpre_none]

/-- Closed witness for `end_marker_truncates`: a document whose pre-marker
part holds one page and whose post-marker part holds a further page marker
and an image reference; parsing ignores everything after the marker. -/
theorem end_marker_truncates_witness :
    (∀ p₂ ∈ "x<!-- lesson:page T -->body".toList.tails, p₂ ≠ [] →
      matchEndAt (p₂ ++ ("<!-- lesson:end -->".toList ++
        "<!-- lesson:page Junk -->![i](p.png)".toList)) = none) ∧
    parse_readme_text "/d".toList ("x<!-- lesson:page T -->body".toList ++
        "<!-- lesson:end -->".toList ++
        "<!-- lesson:page Junk -->![i](p.png)".toList) =
      parse_readme_text "/d".toList "x<!-- lesson:page T -->body".toList := by
  refine ⟨by decide, end_marker_truncates _ _ _ (by decide)⟩

/-! ## Claim C4: segmentation of embedded page content (`_split_page_segments`) -/

/-- Recoverability constraints on an embedded segment: a text chunk
contains no `\x00` delimiter (true of parser output whenever the source
document is `\x00`-free, since the only delimiters come from
`_image_marker`); alt texts and paths never contain a newline, an embedded
`](` (alt) or `)\x00` (path) — which already holds whenever the original
Markdown alt/path were newline-free and `\x00`-free.  Text chunks are not
required to be stripped or nonempty: `parse_readme` strips only whole
pages, so inner chunks adjacent to image markers routinely carry boundary
whitespace. -/
def WfSeg : Segment → Prop
  | .text t => IMG_DELIM ∉ t
  | .image a p => hasSubstr "](".toList a = false ∧ '\n' ∉ a ∧
      hasSubstr [')', IMG_DELIM] p = false ∧ '\n' ∉ p

instance : (s : Segment) → Decidable (WfSeg s)
  | .text t => inferInstanceAs (Decidable (IMG_DELIM ∉ t))
  | .image _ _ => inferInstanceAs (Decidable (_ ∧ _ ∧ _ ∧ _))

/-- The normalization `_split_page_segments` applies to embedded content:
each text chunk is stripped of surrounding whitespace and dropped when the
stripped form is empty; image segments pass through unchanged, in order. -/
def normSegs : List Segment → List Segment
  | [] => []
  | .text t :: rest =>
    (if strip t ≠ [] then [Segment.text (strip t)] else []) ++ normSegs rest
  | .image a p :: rest => Segment.image a p :: normSegs rest

/-- No two adjacent text segments (between any two embedded markers there
is exactly one — possibly dropped — text part). -/
def NoAdjacentTexts : List Segment → Prop
  | [] => True
  | [_] => True
  | s :: s' :: rest =>
    ¬(s.isText = true ∧ s'.isText = true) ∧ NoAdjacentTexts (s' :: rest)

/-- `NoAdjacentTexts` is decidable by direct recursion. -/
def NoAdjacentTexts.dec : (l : List Segment) → Decidable (NoAdjacentTexts l)
  | [] => isTrue trivial
  | [_] => isTrue trivial
  | _ :: s' :: rest =>
    @instDecidableAnd _ _ inferInstance (NoAdjacentTexts.dec (s' :: rest))

instance (l : List Segment) : Decidable (NoAdjacentTexts l) := NoAdjacentTexts.dec l

theorem matchImgMarkerAt_none_of_head {s : Str}
    (h : s.head? ≠ some IMG_DELIM) : matchImgMarkerAt s = none := by
  unfold matchImgMarkerAt
  rcases s with _ | ⟨c, cs⟩
  · rw [if_neg (by simp [List.isPrefixOf])]
  · have hc : c ≠ IMG_DELIM := by
      intro hc
      exact h (by simp [hc])
    rw [if_neg]
    simp [List.isPrefixOf]
    intro hh
    exact absurd hh.symm hc

theorem findImgMarker_none_of_no_nul {s : Str} (h : IMG_DELIM ∉ s) :
    findImgMarker s = none := by
  induction s with
  | nil =>
    rw [findImgMarker, matchImgMarkerAt_none_of_head (by simp)]
  | cons c cs ih =>
    rw [findImgMarker, matchImgMarkerAt_none_of_head
      (by simp; exact fun hc => h (by simp [← hc]))]
    rw [ih (fun hm => h (List.mem_cons_of_mem c hm))]
    rfl

theorem findImgMarker_append {A rest : Str}
    (h : ∀ A₂ ∈ A.tails, A₂ ≠ [] → matchImgMarkerAt (A₂ ++ rest) = none) :
    findImgMarker (A ++ rest) =
      (findImgMarker rest).map (fun x => (A ++ x.1, x.2)) := by
  induction A with
  | nil =>
    simp only [List.nil_append]
    rcases hf : findImgMarker rest with _ | x
    · rfl
    · simp
  | cons c cs ih =>
    have hcons : matchImgMarkerAt (c :: (cs ++ rest)) = none := by
      have := h (c :: cs)
        (by rw [List.tails_cons]; exact List.mem_cons_self _ _) (by simp)
      simpa using this
    rw [List.cons_append, findImgMarker, hcons,
      ih (fun A₂ hmem hne => h A₂
        (by rw [List.tails_cons]; exact List.mem_cons_of_mem _ hmem) hne)]
    rcases hf : findImgMarker rest with _ | x
    · rfl
    · simp

theorem captureToSeq_exact {p rest : Str}
    (h1 : hasSubstr [')', IMG_DELIM] p = false) (h2 : '\n' ∉ p) :
    captureToSeq ')' IMG_DELIM (p ++ ')' :: IMG_DELIM :: rest) =
      some (p, rest) := by
  induction p with
  | nil =>
    rw [List.nil_append, captureToSeq, if_pos ⟨rfl, rfl⟩]
  | cons c p' ih =>
    have hc2 : c ≠ '\n' := fun hc => h2 (hc ▸ List.mem_cons_self c p')
    rcases p' with _ | ⟨d, p''⟩
    · rw [List.cons_append, List.nil_append, captureToSeq,
        if_neg (by rintro ⟨rfl, hd⟩; exact absurd hd (by decide)), if_neg hc2,
        captureToSeq, if_pos ⟨rfl, rfl⟩]
      rfl
    · have hcond : ¬(c = ')' ∧ d = IMG_DELIM) := by
        rintro ⟨rfl, rfl⟩
        rw [hasSubstr] at h1
        simp [List.isPrefixOf] at h1
      have ih' := ih (hasSubstr_false_of_suffix h1 (List.suffix_cons c (d :: p'')))
        (fun hm => h2 (List.mem_cons_of_mem c hm))
      rw [List.cons_append] at ih'
      rw [List.cons_append, List.cons_append, captureToSeq, if_neg hcond,
        if_neg hc2, ih']
      rfl

theorem imgCapture1_exact {alt path rest : Str}
    (h1 : hasSubstr "](".toList alt = false) (h2 : '\n' ∉ alt)
    (h3 : hasSubstr [')', IMG_DELIM] path = false) (h4 : '\n' ∉ path) :
    imgCapture1 (alt ++ ']' :: '(' :: (path ++ ')' :: IMG_DELIM :: rest)) =
      some (alt, path, rest) := by
  induction alt with
  | nil =>
    rw [List.nil_append, imgCapture1]
    rw [if_pos (by simp [List.isPrefixOf])]
    simp [captureToSeq_exact h3 h4]
  | cons a alt' ih =>
    rw [List.cons_append, imgCapture1]
    have hnp : "](".toList.isPrefixOf
        (a :: (alt' ++ ']' :: '(' :: (path ++ ')' :: IMG_DELIM :: rest))) =
          false := by
      rcases alt' with _ | ⟨b, alt''⟩
      · simp [List.isPrefixOf]
      · rw [← Bool.not_eq_true]
        intro hp
        rw [hasSubstr] at h1
        simp only [List.cons_append] at hp
        simp [List.isPrefixOf] at hp h1
        tauto
    have ha : a ≠ '\n' := fun hc => h2 (hc ▸ List.mem_cons_self a alt')
    rw [hnp]
    simp only [Bool.false_eq_true, if_false, ite_false, if_neg ha]
    rw [ih (hasSubstr_false_of_suffix h1 (List.suffix_cons a alt'))
      (fun hm => h2 (List.mem_cons_of_mem a hm))]
    rfl

theorem matchImgMarkerAt_marker {alt path rest : Str}
    (h1 : hasSubstr "](".toList alt = false) (h2 : '\n' ∉ alt)
    (h3 : hasSubstr [')', IMG_DELIM] path = false) (h4 : '\n' ∉ path) :
    matchImgMarkerAt (image_marker alt path ++ rest) = some (alt, path, rest) := by
  unfold matchImgMarkerAt image_marker
  rw [if_pos (by simp [List.isPrefixOf, IMG_DELIM])]
  have hdrop : ((IMG_DELIM ::
      ("IMG[".toList ++ alt ++ "](".toList ++ path ++ [')', IMG_DELIM])) ++
        rest).drop 5 = alt ++ ']' :: '(' :: (path ++ ')' :: IMG_DELIM :: rest) := by
    simp
  rw [hdrop]
  exact imgCapture1_exact h1 h2 h3 h4

theorem findImgMarker_of_match_some {s a p r : Str}
    (h : matchImgMarkerAt s = some (a, p, r)) :
    findImgMarker s = some ([], a, p, r) := by
  rcases s with _ | ⟨c, cs⟩ <;> rw [findImgMarker, h]

theorem imgSplitParts_of_none {s : Str} (h : findImgMarker s = none) :
    imgSplitParts s = [s] := by
  rw [imgSplitParts.eq_def]
  split
  · rfl
  · rename_i t a p r heq
    rw [h] at heq
    cases heq

theorem imgSplitParts_of_some {s t a p r : Str}
    (h : findImgMarker s = some (t, a, p, r)) :
    imgSplitParts s = t :: a :: p :: imgSplitParts r := by
  rw [imgSplitParts.eq_def]
  split
  · rename_i heq
    rw [h] at heq
    cases heq
  · rename_i t' a' p' r' heq
    rw [h] at heq
    cases heq
    rfl

theorem split_prepend_text {t R : Str} (ht : IMG_DELIM ∉ t)
    (hR : R = [] ∨ matchImgMarkerAt R ≠ none) :
    split_page_segments (t ++ R) =
      (if strip t ≠ [] then [Segment.text (strip t)] else []) ++
        split_page_segments R := by
  rcases hR with rfl | hR
  · rw [List.append_nil]
    unfold split_page_segments
    rw [imgSplitParts_of_none (findImgMarker_none_of_no_nul ht),
      imgSplitParts_of_none (findImgMarker_none_of_no_nul (by simp))]
    rw [segLoop, segLoop]
    simp [show strip ([] : Str) = [] from rfl]
  · rcases hm : matchImgMarkerAt R with _ | ⟨a, p, r⟩
    · exact absurd hm hR
    have hskip : ∀ A₂ ∈ t.tails, A₂ ≠ [] → matchImgMarkerAt (A₂ ++ R) = none := by
      intro A₂ hmem hne₂
      apply matchImgMarkerAt_none_of_head
      rcases A₂ with _ | ⟨x, A₃⟩
      · exact absurd rfl hne₂
      · have hx : x ∈ t := ((List.mem_tails _ _).mp hmem).subset
          (List.mem_cons_self x A₃)
        simp
        intro hh
        exact ht (hh ▸ hx)
    have hfR : findImgMarker R = some ([], a, p, r) := findImgMarker_of_match_some hm
    have hfull : findImgMarker (t ++ R) = some (t, a, p, r) := by
      rw [findImgMarker_append hskip, hfR]
      simp
    unfold split_page_segments
    rw [imgSplitParts_of_some hfull, imgSplitParts_of_some hfR]
    rw [segLoop, segLoop]
    simp [show strip ([] : Str) = [] from rfl]

theorem split_page_segments_nil : split_page_segments [] = [] := by
  unfold split_page_segments
  rw [imgSplitParts_of_none (findImgMarker_none_of_no_nul (by simp)), segLoop]
  simp [show strip ([] : Str) = [] from rfl]

theorem split_image_head {a p R : Str}
    (h1 : hasSubstr "](".toList a = false) (h2 : '\n' ∉ a)
    (h3 : hasSubstr [')', IMG_DELIM] p = false) (h4 : '\n' ∉ p) :
    split_page_segments (image_marker a p ++ R) =
      Segment.image a p :: split_page_segments R := by
  have hfind : findImgMarker (image_marker a p ++ R) = some ([], a, p, R) :=
    findImgMarker_of_match_some (matchImgMarkerAt_marker h1 h2 h3 h4)
  unfold split_page_segments
  rw [imgSplitParts_of_some hfind, segLoop]
  simp [show strip ([] : Str) = [] from rfl]

theorem normSegs_filter_images (segs : List Segment) :
    (normSegs segs).filter (fun s => !s.isText) =
      segs.filter (fun s => !s.isText) := by
  induction segs with
  | nil => rfl
  | cons s rest ih =>
    rcases s with t | ⟨a, p⟩
    · rw [normSegs, List.filter_append]
      have h1 : ((if strip t ≠ [] then [Segment.text (strip t)] else []).filter
          (fun s => !s.isText)) = [] := by
        by_cases hs : strip t ≠ [] <;> simp [hs, List.filter, Segment.isText]
      rw [h1, List.nil_append, ih, List.filter_cons]
      simp [Segment.isText]
    · rw [normSegs, List.filter_cons, List.filter_cons, ih]

theorem collapseBlank_of_no_blank {s : Str}
    (h : hasSubstr ['\n', '\n'] s = false) : collapseBlank s = s := by
  induction s with
  | nil => rw [collapseBlank]
  | cons c cs ih =>
    have hcs : hasSubstr ['\n', '\n'] cs = false :=
      hasSubstr_false_of_suffix h (List.suffix_cons c cs)
    by_cases hc : c = '\n'
    · subst hc
      have htw : cs.takeWhile (· = '\n') = [] := by
        rcases cs with _ | ⟨d, cs'⟩
        · rfl
        · have hd : ¬(d = '\n') := by
            intro hd
            subst hd
            rw [hasSubstr] at h
            simp [List.isPrefixOf] at h
          simp [List.takeWhile_cons, hd]
      rw [collapseBlank, if_pos rfl, if_neg (by rw [htw]; simp), ih hcs]
    · rw [collapseBlank, if_neg hc, ih hcs]

theorem imageSub_marker_step {dir A alt rel post : Str}
    (hA : hasSubstr "![".toList A = false)
    (h1 : hasSubstr "](".toList alt = false) (h2 : '\n' ∉ alt)
    (h3 : ')' ∉ rel) (h4 : '\n' ∉ rel) :
    imageSub dir (A ++ ("![".toList ++ alt ++ "](".toList ++ rel ++
        ')' :: post)) =
      A ++ (image_marker alt (normpath (joinPath dir rel)) ++
        imageSub dir post) := by
  rw [imageSub_append (imageSub_skip_of_clean hA (Or.inr (by simp))),
    imageSub_eq_of_some (matchImageAt_marker h1 h2 h3 h4)]

theorem imageSub_nil (dir : Str) : imageSub dir [] = [] := by
  rw [imageSub.eq_def]
  split
  · rename_i alt rel rest heq
    rw [matchImageAt_none_of_no_bang (by decide)] at heq
    cases heq
  · rfl

/-- C4 counterexample: the exact segmentation round-trip fails on content
the parser actually produces.  `parse_readme`'s per-page pipeline applied
to the body `"hello\n![a](p)"` (directory `/d`) embeds the text chunk
`"hello\n"` followed by an image marker — the whole-page `strip` removes
nothing, since the content starts with `h` and ends with the `\x00`
delimiter — yet `_split_page_segments` returns the chunk stripped to
`"hello"`, not the embedded `"hello\n"`.  And for the body
`"![a](p)\n![b](q)"` the embedded whitespace-only chunk `"\n"` between
the two images is dropped entirely: two segments come back where three
were embedded. -/
theorem segmentation_roundtrip_cex :
    process_content "/d".toList "hello\n![a](p)".toList =
      renderSegments
        [Segment.text "hello\n".toList,
          Segment.image "a".toList "/d/p".toList] ∧
    split_page_segments
        (renderSegments
          [Segment.text "hello\n".toList,
            Segment.image "a".toList "/d/p".toList]) =
      [Segment.text "hello".toList, Segment.image "a".toList "/d/p".toList] ∧
    split_page_segments
        (renderSegments
          [Segment.text "hello\n".toList,
            Segment.image "a".toList "/d/p".toList]) ≠
      [Segment.text "hello\n".toList,
        Segment.image "a".toList "/d/p".toList] ∧
    process_content "/d".toList "![a](p)\n![b](q)".toList =
      renderSegments
        [Segment.image "a".toList "/d/p".toList, Segment.text "\n".toList,
          Segment.image "b".toList "/d/q".toList] ∧
    split_page_segments
        (renderSegments
          [Segment.image "a".toList "/d/p".toList, Segment.text "\n".toList,
            Segment.image "b".toList "/d/q".toList]) =
      [Segment.image "a".toList "/d/p".toList,
        Segment.image "b".toList "/d/q".toList] := by
  have hX : normpath (joinPath "/d".toList "p".toList) = "/d/p".toList := by
    decide
  have hY : normpath (joinPath "/d".toList "q".toList) = "/d/q".toList := by
    decide
  have hprod1 : process_content "/d".toList "hello\n![a](p)".toList =
      renderSegments
        [Segment.text "hello\n".toList,
          Segment.image "a".toList "/d/p".toList] := by
    unfold process_content
    rw [show "hello\n![a](p)".toList =
        "hello\n".toList ++ ("![".toList ++ "a".toList ++ "](".toList ++
          "p".toList ++ ')' :: ([] : Str)) from by decide]
    rw [@imageSub_marker_step "/d".toList "hello\n".toList "a".toList
      "p".toList ([] : Str) (by decide) (by decide) (by decide) (by decide)
      (by decide)]
    rw [imageSub_nil, hX, List.append_nil]
    rw [@collapseBlank_of_no_blank
      ("hello\n".toList ++ image_marker "a".toList "/d/p".toList) (by decide)]
    decide
  have hsplit1 : split_page_segments
      (renderSegments
        [Segment.text "hello\n".toList,
          Segment.image "a".toList "/d/p".toList]) =
      [Segment.text "hello".toList,
        Segment.image "a".toList "/d/p".toList] := by
    show split_page_segments ("hello\n".toList ++
      (image_marker "a".toList "/d/p".toList ++ ([] : Str))) = _
    have hm : matchImgMarkerAt
        (image_marker "a".toList "/d/p".toList ++ ([] : Str)) =
        some ("a".toList, "/d/p".toList, ([] : Str)) :=
      @matchImgMarkerAt_marker "a".toList "/d/p".toList ([] : Str)
        (by decide) (by decide) (by decide) (by decide)
    rw [@split_prepend_text "hello\n".toList
      (image_marker "a".toList "/d/p".toList ++ ([] : Str)) (by decide)
      (Or.inr (by rw [hm]; simp))]
    rw [@split_image_head "a".toList "/d/p".toList ([] : Str)
      (by decide) (by decide) (by decide) (by decide)]
    rw [split_page_segments_nil]
    decide
  have hprod2 : process_content "/d".toList "![a](p)\n![b](q)".toList =
      renderSegments
        [Segment.image "a".toList "/d/p".toList, Segment.text "\n".toList,
          Segment.image "b".toList "/d/q".toList] := by
    unfold process_content
    rw [show "![a](p)\n![b](q)".toList =
        ([] : Str) ++ ("![".toList ++ "a".toList ++ "](".toList ++
          "p".toList ++ ')' :: "\n![b](q)".toList) from by decide]
    rw [@imageSub_marker_step "/d".toList ([] : Str) "a".toList "p".toList
      "\n![b](q)".toList (by decide) (by decide) (by decide) (by decide)
      (by decide)]
    rw [show "\n![b](q)".toList =
        "\n".toList ++ ("![".toList ++ "b".toList ++ "](".toList ++
          "q".toList ++ ')' :: ([] : Str)) from by decide]
    rw [@imageSub_marker_step "/d".toList "\n".toList "b".toList "q".toList
      ([] : Str) (by decide) (by decide) (by decide) (by decide) (by decide)]
    rw [imageSub_nil, hX, hY]
    simp only [List.nil_append, List.append_nil]
    rw [@collapseBlank_of_no_blank
      (image_marker "a".toList "/d/p".toList ++
        ("\n".toList ++ image_marker "b".toList "/d/q".toList)) (by decide)]
    decide
  have hsplit2 : split_page_segments
      (renderSegments
        [Segment.image "a".toList "/d/p".toList, Segment.text "\n".toList,
          Segment.image "b".toList "/d/q".toList]) =
      [Segment.image "a".toList "/d/p".toList,
        Segment.image "b".toList "/d/q".toList] := by
    show split_page_segments (image_marker "a".toList "/d/p".toList ++
      ("\n".toList ++
        (image_marker "b".toList "/d/q".toList ++ ([] : Str)))) = _
    rw [@split_image_head "a".toList "/d/p".toList
      ("\n".toList ++ (image_marker "b".toList "/d/q".toList ++ ([] : Str)))
      (by decide) (by decide) (by decide) (by decide)]
    have hmb : matchImgMarkerAt
        (image_marker "b".toList "/d/q".toList ++ ([] : Str)) =
        some ("b".toList, "/d/q".toList, ([] : Str)) :=
      @matchImgMarkerAt_marker "b".toList "/d/q".toList ([] : Str)
        (by decide) (by decide) (by decide) (by decide)
    rw [@split_prepend_text "\n".toList
      (image_marker "b".toList "/d/q".toList ++ ([] : Str)) (by decide)
      (Or.inr (by rw [hmb]; simp))]
    rw [@split_image_head "b".toList "/d/q".toList ([] : Str)
      (by decide) (by decide) (by decide) (by decide)]
    rw [split_page_segments_nil]
    decide
  exact ⟨hprod1, hsplit1, by rw [hsplit1]; decide, hprod2, hsplit2⟩

/-- C4 (amended): for page content carrying embedded segments — text
chunks interleaved with the parser's inline image markers, no two text
chunks adjacent — `_split_page_segments` recovers every embedded
(alt, path) image pair exactly and in source order, and recovers each
embedded text chunk trimmed of surrounding whitespace, dropping chunks
that are empty or whitespace-only: the result is exactly `normSegs segs`,
whose image subsequence is that of `segs`. -/
theorem segmentation_roundtrip_amended (segs : List Segment)
    (hwf : ∀ s ∈ segs, WfSeg s) (halt : NoAdjacentTexts segs) :
    split_page_segments (renderSegments segs) = normSegs segs ∧
    (normSegs segs).filter (fun s => !s.isText) =
      segs.filter (fun s => !s.isText) := by
  refine ⟨?_, normSegs_filter_images segs⟩
  induction segs with
  | nil =>
    rw [renderSegments, normSegs]
    exact split_page_segments_nil
  | cons s rest ih =>
    have hwfs := hwf s (List.mem_cons_self s rest)
    have hwfrest : ∀ x ∈ rest, WfSeg x :=
      fun x hx => hwf x (List.mem_cons_of_mem s hx)
    have haltrest : NoAdjacentTexts rest := by
      rcases rest with _ | ⟨s', rest'⟩
      · trivial
      · exact halt.2
    rcases s with t | ⟨a, p⟩
    · have hnul : IMG_DELIM ∉ t := hwfs
      rw [renderSegments]
      rw [split_prepend_text hnul, ih hwfrest haltrest, normSegs]
      rcases rest with _ | ⟨s', rest'⟩
      · exact Or.inl rfl
      · rcases s' with t' | ⟨a', p'⟩
        · exact absurd ⟨rfl, rfl⟩ halt.1
        · obtain ⟨h1, h2, h3, h4⟩ := hwfrest _ (List.mem_cons_self _ _)
          rw [renderSegments]
          exact Or.inr (by rw [matchImgMarkerAt_marker h1 h2 h3 h4]; simp)
    · obtain ⟨h1, h2, h3, h4⟩ := hwfs
      rw [renderSegments, split_image_head h1 h2 h3 h4, ih hwfrest haltrest,
        normSegs]

/-- Closed witness for `segmentation_roundtrip_amended`: a page embedding
an untrimmed text chunk, two images separated by a newline-only chunk, and
a padded trailing chunk; the recovered sequence is the normalized one —
both images in order, text chunks stripped, the whitespace-only chunk
dropped. -/
theorem segmentation_roundtrip_amended_witness :
    (∀ s ∈ [Segment.text "hello\n".toList,
        Segment.image "a".toList "/d/p.png".toList,
        Segment.text "\n".toList,
        Segment.image "b".toList "/d/q.png".toList,
        Segment.text " tail ".toList], WfSeg s) ∧
    NoAdjacentTexts
      [Segment.text "hello\n".toList,
        Segment.image "a".toList "/d/p.png".toList,
        Segment.text "\n".toList,
        Segment.image "b".toList "/d/q.png".toList,
        Segment.text " tail ".toList] ∧
    (split_page_segments (renderSegments
        [Segment.text "hello\n".toList,
          Segment.image "a".toList "/d/p.png".toList,
          Segment.text "\n".toList,
          Segment.image "b".toList "/d/q.png".toList,
          Segment.text " tail ".toList]) =
      normSegs
        [Segment.text "hello\n".toList,
          Segment.image "a".toList "/d/p.png".toList,
          Segment.text "\n".toList,
          Segment.image "b".toList "/d/q.png".toList,
          Segment.text " tail ".toList] ∧
      (normSegs
        [Segment.text "hello\n".toList,
          Segment.image "a".toList "/d/p.png".toList,
          Segment.text "\n".toList,
          Segment.image "b".toList "/d/q.png".toList,
          Segment.text " tail ".toList]).filter (fun s => !s.isText) =
        ([Segment.text "hello\n".toList,
          Segment.image "a".toList "/d/p.png".toList,
          Segment.text "\n".toList,
          Segment.image "b".toList "/d/q.png".toList,
          Segment.text " tail ".toList]).filter (fun s => !s.isText)) ∧
    normSegs
      [Segment.text "hello\n".toList,
        Segment.image "a".toList "/d/p.png".toList,
        Segment.text "\n".toList,
        Segment.image "b".toList "/d/q.png".toList,
        Segment.text " tail ".toList] =
      [Segment.text "hello".toList,
        Segment.image "a".toList "/d/p.png".toList,
        Segment.image "b".toList "/d/q.png".toList,
        Segment.text "tail".toList] := by
  exact ⟨by decide, by decide,
    segmentation_roundtrip_amended _ (by decide) (by decide), by decide⟩

/-! ## Claim C3: well-formed page markers parse to their pages

Auxiliary whitespace and `strip` lemmas. -/

theorem dropWhile_append_all {p : Char → Bool} {l1 l2 : Str}
    (h : ∀ c ∈ l1, p c = true) : (l1 ++ l2).dropWhile p = l2.dropWhile p := by
  induction l1 with
  | nil => rfl
  | cons c cs ih =>
    rw [List.cons_append, List.dropWhile_cons,
      if_pos (h c (List.mem_cons_self c cs))]
    exact ih (fun c hc => h c (List.mem_cons_of_mem _ hc))

theorem takeWhile_append_all {p : Char → Bool} {l1 l2 : Str}
    (h : ∀ c ∈ l1, p c = true) : (l1 ++ l2).takeWhile p = l1 ++ l2.takeWhile p := by
  induction l1 with
  | nil => rfl
  | cons c cs ih =>
    rw [List.cons_append, List.takeWhile_cons,
      if_pos (h c (List.mem_cons_self c cs)), ih (fun c hc => h c (List.mem_cons_of_mem _ hc))]
    rfl

theorem takeWhile_append_of_ne_nil {p : Char → Bool} {l1 l2 : Str}
    (h : l1.dropWhile p ≠ []) : (l1 ++ l2).takeWhile p = l1.takeWhile p := by
  induction l1 with
  | nil => exact absurd rfl h
  | cons c cs ih =>
    rw [List.cons_append, List.takeWhile_cons, List.takeWhile_cons]
    rw [List.dropWhile_cons] at h
    split
    · rename_i hp
      rw [if_pos hp] at h
      rw [ih h]
    · rfl

theorem getLast?_of_suffix {s l : Str} (h : s <:+ l) (hne : s ≠ []) :
    l.getLast? = s.getLast? := by
  obtain ⟨pre, rfl⟩ := h
  exact List.getLast?_append_of_ne_nil pre hne

theorem head?_dropWhile_false {p : Char → Bool} {l : Str} {c : Char}
    (h : (l.dropWhile p).head? = some c) : p c = false := by
  induction l with
  | nil => simp at h
  | cons x xs ih =>
    rw [List.dropWhile_cons] at h
    split at h
    · exact ih h
    · rename_i hp
      simp at h
      subst h
      simpa using hp

theorem rstrip_decomp (l : Str) :
    l = rstrip l ++ (l.reverse.takeWhile isPyWs).reverse := by
  unfold rstrip
  conv_lhs => rw [← List.reverse_reverse l]
  conv_lhs => rw [← List.takeWhile_append_dropWhile (p := isPyWs) (l := l.reverse)]
  rw [List.reverse_append]

theorem rstrip_prefix_self (l : Str) : rstrip l <+: l := by
  conv_rhs => rw [rstrip_decomp l]
  exact List.prefix_append ..

theorem mem_of_mem_strip {c : Char} {s : Str} (h : c ∈ strip s) : c ∈ s := by
  unfold strip at h
  have h1 : c ∈ lstrip s := (rstrip_prefix_self (lstrip s)).subset h
  exact (List.dropWhile_suffix isPyWs).subset h1

theorem strip_infix_self (s : Str) : strip s <:+: s :=
  ((rstrip_prefix_self (lstrip s)).isInfix).trans (List.dropWhile_suffix isPyWs).isInfix

theorem infix_hasSubstr_false {pat s s' : Str} (h : hasSubstr pat s = false)
    (hs : s' <:+: s) : hasSubstr pat s' = false := by
  by_contra hne
  have h2 : hasSubstr pat s' = true := by
    cases hh : hasSubstr pat s'
    · exact absurd hh hne
    · rfl
  rw [hasSubstr_infix_iff.mpr ((hasSubstr_infix_iff.mp h2).trans hs)] at h
  cases h

theorem strip_all_ws {s : Str} (h : hasNonWs s = false) : strip s = [] := by
  have hall : ∀ c ∈ s, isPyWs c = true := by
    intro c hc
    by_contra hw
    rw [hasNonWs] at h
    rw [List.any_eq_false] at h
    have := h c hc
    simp at this
    exact hw (by simp [this])
  have hl : lstrip s = [] := List.dropWhile_eq_nil_iff.mpr hall
  unfold strip
  rw [hl]
  rfl

theorem strip_ne_nil {s : Str} (h : hasNonWs s = true) : strip s ≠ [] := by
  rw [hasNonWs, List.any_eq_true] at h
  obtain ⟨c, hc, hw⟩ := h
  simp at hw
  intro hnil
  have hsplit : s = s.takeWhile isPyWs ++ lstrip s :=
    (List.takeWhile_append_dropWhile ..).symm
  have h1 : c ∈ lstrip s ∨ c ∈ s.takeWhile isPyWs := by
    rcases List.mem_append.mp (hsplit ▸ hc) with h | h
    · exact Or.inr h
    · exact Or.inl h
  rcases h1 with h1 | h1
  · have h2 : c ∈ rstrip (lstrip s) ∨
        c ∈ ((lstrip s).reverse.takeWhile isPyWs).reverse := by
      rcases List.mem_append.mp (by rw [← rstrip_decomp (lstrip s)]; exact h1) with h | h
      · exact Or.inl h
      · exact Or.inr h
    rcases h2 with h2 | h2
    · rw [show rstrip (lstrip s) = strip s from rfl, hnil] at h2
      simp at h2
    · have := List.mem_takeWhile_imp (List.mem_reverse.mp h2)
      rw [this] at hw
      cases hw
  · have := List.mem_takeWhile_imp h1
    rw [this] at hw
    cases hw

theorem lstrip_head_not_ws {s : Str} {c : Char} (h : (lstrip s).head? = some c) :
    isPyWs c = false := head?_dropWhile_false h

theorem strip_idem (s : Str) : strip (strip s) = strip s := by
  rcases hs : strip s with _ | ⟨c, cs⟩
  · rfl
  · have hhead : isPyWs c = false := by
      have h1 : (lstrip s).head? = some c := by
        have hpre := rstrip_prefix_self (lstrip s)
        rw [show rstrip (lstrip s) = strip s from rfl, hs] at hpre
        obtain ⟨post, hpost⟩ := hpre
        rw [← hpost]
        rfl
      exact lstrip_head_not_ws h1
    have hlast : ∀ d, (strip s).getLast? = some d → isPyWs d = false := by
      intro d hd
      unfold strip rstrip at hd
      rw [List.getLast?_reverse] at hd
      exact head?_dropWhile_false hd
    unfold strip
    have hl : lstrip (c :: cs) = c :: cs := by
      unfold lstrip
      rw [List.dropWhile_cons, if_neg (by simp [hhead])]
    rw [← hs, hs, hl, ← hs]
    rcases hlast2 : (strip s).getLast? with _ | d
    · rw [hs] at hlast2
      simp at hlast2
    · have hwd : isPyWs d = false := hlast d hlast2
      unfold rstrip
      have : (strip s).reverse.head? = some d := by
        rw [List.head?_reverse]
        exact hlast2
      rcases hrev : (strip s).reverse with _ | ⟨d', ds⟩
      · rw [hrev] at this
        simp at this
      · rw [hrev] at this
        simp at this
        subst this
        rw [List.dropWhile_cons, if_neg (by simp [hwd]), ← hrev,
          List.reverse_reverse]

/-! Title capture at a rendered page marker. -/

/-- `-->` cannot occur at the seam between an arrow-free prefix and a
continuation starting with whitespace (its characters are not whitespace). -/
theorem arrow_seam {A B : Str} (hA : hasSubstr "-->".toList A = false)
    (hne : A ≠ []) (hB : ∃ w, B.head? = some w ∧ isPyWs w = true) :
    "-->".toList.isPrefixOf (A ++ B) = false := by
  obtain ⟨w, hw, hws⟩ := hB
  have hBcases : ∃ B', B = w :: B' := by
    rcases B with _ | ⟨x, B'⟩
    · simp at hw
    · simp at hw
      subst hw
      exact ⟨B', rfl⟩
  obtain ⟨B', rfl⟩ := hBcases
  have hwne1 : w ≠ '-' := by
    rintro rfl
    simp [isPyWs] at hws
  have hwne2 : w ≠ '>' := by
    rintro rfl
    simp [isPyWs] at hws
  rw [← Bool.not_eq_true]
  intro hp
  rcases A with _ | ⟨a, A1⟩
  · exact hne rfl
  rcases A1 with _ | ⟨b, A2⟩
  · simp [List.isPrefixOf] at hp
    exact hwne1 hp.2.1.symm
  rcases A2 with _ | ⟨c, A3⟩
  · simp [List.isPrefixOf] at hp
    exact hwne2 hp.2.2.symm
  rw [hasSubstr] at hA
  simp only [List.cons_append] at hp
  simp [List.isPrefixOf] at hp hA
  tauto

/-- `\s*-->` succeeds on whitespace followed by a literal arrow. -/
theorem matchWsArrow_ws_arrow {tws body : Str} (h : ∀ c ∈ tws, isPyWs c = true) :
    matchWsArrow (tws ++ ("-->".toList ++ body)) = some body := by
  unfold matchWsArrow
  rw [dropWhile_append_all h,
    show ("-->".toList ++ body).dropWhile isPyWs = "-->".toList ++ body from by
      simp +decide [List.dropWhile, isPyWs],
    if_pos (isPrefixOf_append_left (by decide))]
  simp

/-- `\s*-->` fails while the scan position is still inside an arrow-free
text that contains a non-whitespace character, when what follows starts
with whitespace. -/
theorem matchWsArrow_none_mid {A₂ rest : Str}
    (hA : hasSubstr "-->".toList A₂ = false)
    (hnws : A₂.dropWhile isPyWs ≠ [])
    (hB : ∃ w, rest.head? = some w ∧ isPyWs w = true) :
    matchWsArrow (A₂ ++ rest) = none := by
  unfold matchWsArrow
  rw [dropWhile_append_of_ne_nil hnws,
    arrow_seam (hasSubstr_false_of_suffix hA (List.dropWhile_suffix _)) hnws hB]
  simp

theorem captureTitle_of_arrow_some {s rest : Str} (h : matchWsArrow s = some rest) :
    captureTitle s = some ([], rest) := by
  rcases s with _ | ⟨c, cs⟩ <;> rw [captureTitle, h]

theorem captureTitle_cons_of_arrow_none {c : Char} {cs : Str}
    (h : matchWsArrow (c :: cs) = none) (hc : c ≠ '\n') :
    captureTitle (c :: cs) = (captureTitle cs).map fun tr => (c :: tr.1, tr.2) := by
  rw [captureTitle, h, if_neg hc]

/-- The non-greedy `(.*?)\s*-->` captures exactly the arrow-free,
newline-free `core` (whose last character is not whitespace) and stops at
the trailing whitespace + arrow. -/
theorem captureTitle_core {core tws body : Str}
    (hnl : '\n' ∉ core) (harrow : hasSubstr "-->".toList core = false)
    (hlast : ∀ d, core.getLast? = some d → isPyWs d = false)
    (htws : ∀ c ∈ tws, isPyWs c = true) (htwsne : tws ≠ []) :
    captureTitle (core ++ (tws ++ ("-->".toList ++ body))) = some (core, body) := by
  induction core with
  | nil =>
    rw [List.nil_append]
    exact captureTitle_of_arrow_some (matchWsArrow_ws_arrow htws)
  | cons c core' ih =>
    have hgl : ∃ d, (c :: core').getLast? = some d ∧ isPyWs d = false := by
      rcases hg : (c :: core').getLast? with _ | d
      · simp at hg
      · exact ⟨d, rfl, hlast d hg⟩
    obtain ⟨d, hd, hdw⟩ := hgl
    have hdmem : d ∈ c :: core' := by
      obtain ⟨hh, rfl⟩ := List.mem_getLast?_eq_getLast hd
      exact List.getLast_mem hh
    have hnws : (c :: core').dropWhile isPyWs ≠ [] := by
      intro hnil
      have := List.dropWhile_eq_nil_iff.mp hnil d hdmem
      rw [this] at hdw
      cases hdw
    have htwhead : ∃ w, (tws ++ ("-->".toList ++ body)).head? = some w ∧
        isPyWs w = true := by
      rcases tws with _ | ⟨w, tws'⟩
      · exact absurd rfl htwsne
      · exact ⟨w, rfl, htws w (List.mem_cons_self w tws')⟩
    have hnone : matchWsArrow ((c :: core') ++ (tws ++ ("-->".toList ++ body))) =
        none := matchWsArrow_none_mid harrow hnws htwhead
    rw [List.cons_append] at hnone ⊢
    rw [captureTitle_cons_of_arrow_none hnone
      (fun hcn => hnl (hcn ▸ List.mem_cons_self c core'))]
    rcases core' with _ | ⟨e, core''⟩
    · rw [List.nil_append,
        captureTitle_of_arrow_some (matchWsArrow_ws_arrow htws)]
      rfl
    · have hlast' : ∀ d', (e :: core'').getLast? = some d' → isPyWs d' = false := by
        intro d' hd'
        exact hlast d' ((List.getLast?_cons_cons ..).trans hd')
      rw [ih (fun hm => hnl (List.mem_cons_of_mem c hm))
        (hasSubstr_false_of_suffix harrow (List.suffix_cons c _)) hlast']
      rfl
/-- A canonically rendered page marker with free-text title `raw`. -/
def pageMarker (raw : Str) : Str :=
  "<!-- lesson:page ".toList ++ raw ++ " -->".toList

theorem strip_getLast_not_ws {s : Str} :
    ∀ d, (strip s).getLast? = some d → isPyWs d = false := by
  intro d hd
  unfold strip rstrip at hd
  rw [List.getLast?_reverse] at hd
  exact head?_dropWhile_false hd

theorem lstrip_ne_nil_of_hasNonWs {s : Str} (h : hasNonWs s = true) :
    lstrip s ≠ [] := by
  intro hnil
  have hcontra : strip s = [] := by
    unfold strip
    rw [hnil]
    rfl
  exact strip_ne_nil h hcontra

theorem dropWhile_lstrip (s : Str) : (lstrip s).dropWhile isPyWs = lstrip s := by
  rcases hl : lstrip s with _ | ⟨c, cs⟩
  · rfl
  · have hc : isPyWs c = false := lstrip_head_not_ws (by rw [hl]; rfl)
    rw [List.dropWhile_cons, if_neg (by simp [hc])]

theorem all_ws_of_not_hasNonWs {s : Str} (h : hasNonWs s = false) :
    ∀ c ∈ s, isPyWs c = true := by
  intro c hc
  rw [hasNonWs, List.any_eq_false] at h
  have := h c hc
  simpa using this

/-- Scanning the whitespace after `lesson:page\s+` lands exactly at the
stripped title core when the raw title has one. -/
theorem dropWhile_title {raw rest2 : Str} (h : hasNonWs raw = true) :
    (raw ++ rest2).dropWhile isPyWs =
      strip raw ++ (((lstrip raw).reverse.takeWhile isPyWs).reverse ++ rest2) := by
  conv_lhs => rw [show raw = raw.takeWhile isPyWs ++ lstrip raw from
    (List.takeWhile_append_dropWhile ..).symm]
  rw [List.append_assoc,
    dropWhile_append_all (fun c hc => List.mem_takeWhile_imp hc),
    dropWhile_append_of_ne_nil
      (by rw [dropWhile_lstrip]; exact lstrip_ne_nil_of_hasNonWs h),
    dropWhile_lstrip]
  conv_lhs => rw [show lstrip raw =
    strip raw ++ ((lstrip raw).reverse.takeWhile isPyWs).reverse from
      rstrip_decomp (lstrip raw)]
  rw [List.append_assoc]

/-- `PAGE_MARKER` matches a canonically rendered marker, capturing exactly
the stripped free-text title and leaving exactly the following text. -/
theorem matchPageAt_marker {raw body : Str} (hnl : '\n' ∉ raw)
    (harrow : hasSubstr "-->".toList raw = false) :
    matchPageAt (pageMarker raw ++ body) = some (strip raw, body) := by
  have hexp : pageMarker raw ++ body =
      "<!-- lesson:page ".toList ++ (raw ++ (' ' :: ("-->".toList ++ body))) := by
    simp [pageMarker]
  rw [hexp]
  unfold matchPageAt
  rw [if_pos (isPrefixOf_append_left (by decide))]
  rw [List.drop_append_of_le_length (by decide),
    show "<!-- lesson:page ".toList.drop 4 = " lesson:page ".toList from by decide]
  rw [show (" lesson:page ".toList ++
      (raw ++ (' ' :: ("-->".toList ++ body)))).dropWhile isPyWs =
      "lesson:page ".toList ++ (raw ++ (' ' :: ("-->".toList ++ body))) from by
    simp +decide [List.dropWhile, isPyWs]]
  rw [if_pos (isPrefixOf_append_left (by decide))]
  rw [List.drop_append_of_le_length (by decide),
    show "lesson:page ".toList.drop 11 = [' '] from by decide]
  rw [List.singleton_append]
  show captureTitle ((raw ++ ' ' :: ("-->".toList ++ body)).dropWhile isPyWs) =
    some (strip raw, body)
  rcases hnw : hasNonWs raw with _ | _
  · have hall := all_ws_of_not_hasNonWs hnw
    rw [dropWhile_append_all hall,
      show (' ' :: ("-->".toList ++ body)).dropWhile isPyWs =
        "-->".toList ++ body from by simp +decide [List.dropWhile, isPyWs]]
    rw [captureTitle_of_arrow_some
      (by simpa using @matchWsArrow_ws_arrow [] body (by simp))]
    rw [strip_all_ws hnw]
  · rw [dropWhile_title hnw]
    have hregroup : ((lstrip raw).reverse.takeWhile isPyWs).reverse ++
        (' ' :: ("-->".toList ++ body)) =
        (((lstrip raw).reverse.takeWhile isPyWs).reverse ++ [' ']) ++
          ("-->".toList ++ body) := by
      simp
    rw [hregroup]
    rw [captureTitle_core (fun hm => hnl (mem_of_mem_strip hm))
      (infix_hasSubstr_false harrow (strip_infix_self raw))
      strip_getLast_not_ws
      (by
        intro c hc
        rcases List.mem_append.mp hc with h | h
        · exact List.mem_takeWhile_imp (List.mem_reverse.mp h)
        · simp at h
          simp [h, isPyWs])
      (by simp)]

theorem isPrefixOf_false_of_hasSubstr_false {pat s : Str}
    (h : hasSubstr pat s = false) : pat.isPrefixOf s = false := by
  rcases s with _ | ⟨c, cs⟩
  · rw [hasSubstr] at h
    rcases pat with _ | ⟨p, ps⟩
    · simp at h
    · simp [List.isPrefixOf]
  · rw [hasSubstr] at h
    rcases hp : pat.isPrefixOf (c :: cs)
    · rfl
    · rw [hp] at h
      simp at h

theorem matchPageAt_none_of_no_open {s : Str}
    (h : "<!--".toList.isPrefixOf s = false) : matchPageAt s = none := by
  unfold matchPageAt
  rw [h]
  simp

theorem findPage_of_match_some {s t r : Str} (h : matchPageAt s = some (t, r)) :
    findPage s = some ([], t, r) := by
  rcases s with _ | ⟨c, cs⟩ <;> rw [findPage, h]

theorem findPage_none_of_all {s : Str}
    (h : ∀ p₂ ∈ s.tails, matchPageAt p₂ = none) : findPage s = none := by
  induction s with
  | nil =>
    rw [findPage, h [] (by simp)]
  | cons c cs ih =>
    rw [findPage,
      h (c :: cs) (by rw [List.tails_cons]; exact List.mem_cons_self _ _),
      ih (fun p₂ hmem => h p₂ (by rw [List.tails_cons]; exact List.mem_cons_of_mem _ hmem))]
    rfl

theorem findPage_append {A rest : Str}
    (h : ∀ A₂ ∈ A.tails, A₂ ≠ [] → matchPageAt (A₂ ++ rest) = none) :
    findPage (A ++ rest) = (findPage rest).map (fun x => (A ++ x.1, x.2)) := by
  induction A with
  | nil =>
    simp only [List.nil_append]
    rcases hf : findPage rest with _ | x
    · rfl
    · simp
  | cons c cs ih =>
    have hcons : matchPageAt (c :: (cs ++ rest)) = none := by
      have := h (c :: cs)
        (by rw [List.tails_cons]; exact List.mem_cons_self _ _) (by simp)
      simpa using this
    rw [List.cons_append, findPage, hcons,
      ih (fun A₂ hmem hne => h A₂
        (by rw [List.tails_cons]; exact List.mem_cons_of_mem _ hmem) hne)]
    rcases hf : findPage rest with _ | x
    · rfl
    · simp

theorem pageSplit_of_none {s : Str} (h : findPage s = none) :
    pageSplit s = [s] := by
  rw [pageSplit.eq_def]
  split
  · rfl
  · rename_i p t r heq
    rw [h] at heq
    cases heq

theorem pageSplit_of_some {s p t r : Str} (h : findPage s = some (p, t, r)) :
    pageSplit s = p :: t :: pageSplit r := by
  rw [pageSplit.eq_def]
  split
  · rename_i heq
    rw [h] at heq
    cases heq
  · rename_i p' t' r' heq
    rw [h] at heq
    cases heq
    rfl

/-- A document body built from canonically rendered markers: each page is
`<!-- lesson:page {title} -->{body}`. -/
def renderPages : List (Str × Str) → Str
  | [] => []
  | (t, b) :: rest => pageMarker t ++ (b ++ renderPages rest)

/-- The `re.split` parts contributed by the rendered pages. -/
def pageParts : List (Str × Str) → List Str
  | [] => []
  | (t, b) :: rest => strip t :: b :: pageParts rest

/-- Well-formedness of a (title, body) pair: the title contains no
newline, no `-->` and no `<!--`; the body contains no `<!--` and has some
non-whitespace content. -/
def WfPage (p : Str × Str) : Prop :=
  '\n' ∉ p.1 ∧ hasSubstr "-->".toList p.1 = false ∧
    hasSubstr "<!--".toList p.1 = false ∧
    hasSubstr "<!--".toList p.2 = false ∧ hasNonWs p.2 = true

instance : (p : Str × Str) → Decidable (WfPage p) := fun _ =>
  inferInstanceAs (Decidable (_ ∧ _ ∧ _ ∧ _ ∧ _))

theorem renderPages_head_cases (ps : List (Str × Str)) :
    renderPages ps = [] ∨ (renderPages ps).head? = some '<' := by
  rcases ps with _ | ⟨⟨t, b⟩, rest⟩
  · exact Or.inl rfl
  · exact Or.inr rfl

theorem matchPageAt_skip_clean {A rest : Str}
    (hA : hasSubstr "<!--".toList A = false)
    (hrest : rest = [] ∨ rest.head? = some '<' ∨ rest.head? = some ' ') :
    ∀ A₂ ∈ A.tails, A₂ ≠ [] → matchPageAt (A₂ ++ rest) = none := by
  intro A₂ hmem hne
  exact matchPageAt_none_of_no_open
    (open_seam (hasSubstr_false_of_suffix hA ((List.mem_tails _ _).mp hmem)) hne hrest)

/-- `PAGE_MARKER.split` on a rendered document: the front matter followed
by alternating stripped titles and bodies. -/
theorem pageSplit_render (front : Str) (ps : List (Str × Str))
    (hfront : hasSubstr "<!--".toList front = false)
    (hps : ∀ p ∈ ps, WfPage p) :
    pageSplit (front ++ renderPages ps) = front :: pageParts ps := by
  induction ps generalizing front with
  | nil =>
    rw [renderPages, List.append_nil, pageParts]
    apply pageSplit_of_none
    apply findPage_none_of_all
    intro p₂ hmem
    rcases p₂ with _ | ⟨c, cs⟩
    · rw [matchPageAt]
      rw [show "<!--".toList.isPrefixOf ([] : Str) = false from by decide]
      simp
    · apply matchPageAt_none_of_no_open
      apply isPrefixOf_false_of_hasSubstr_false
      exact hasSubstr_false_of_suffix hfront ((List.mem_tails _ _).mp hmem)
  | cons p rest ih =>
    obtain ⟨t, b⟩ := p
    obtain ⟨hnl, harr, hto, hbo, hbn⟩ := hps (t, b) (List.mem_cons_self _ _)
    have hrest : ∀ x ∈ rest, WfPage x := fun x hx => hps x (List.mem_cons_of_mem _ hx)
    rw [renderPages]
    have hfind : findPage (front ++ (pageMarker t ++ (b ++ renderPages rest))) =
        some (front, strip t, b ++ renderPages rest) := by
      rw [findPage_append (matchPageAt_skip_clean hfront
        (Or.inr (Or.inl (by simp [pageMarker]))))]
      rw [findPage_of_match_some (matchPageAt_marker hnl harr)]
      simp
    rw [pageSplit_of_some hfind, ih b hbo hrest, pageParts]

/-! No end-marker match anywhere in a rendered document. -/

theorem matchEndAt_none_of_no_open {s : Str}
    (h : "<!--".toList.isPrefixOf s = false) : matchEndAt s = none := by
  unfold matchEndAt
  rw [h]
  simp

theorem matchEndAt_none_of_head_ne {s : Str} (h : s.head? ≠ some '<') :
    matchEndAt s = none := by
  apply matchEndAt_none_of_no_open
  rcases s with _ | ⟨c, cs⟩
  · decide
  · have hc : c ≠ '<' := by
      intro hc
      exact h (by simp [hc])
    simp [List.isPrefixOf]
    intro hh
    exact absurd hh.symm hc

/-- The end-marker regex cannot match at a page-marker start: after the
comment opener and whitespace it finds `lesson:page`, not `lesson:end`. -/
theorem matchEndAt_pageTemplate (X : Str) :
    matchEndAt ("<!-- lesson:page ".toList ++ X) = none := by
  unfold matchEndAt
  rw [if_pos (isPrefixOf_append_left (by decide))]
  rw [List.drop_append_of_le_length (by decide),
    show "<!-- lesson:page ".toList.drop 4 = " lesson:page ".toList from by decide]
  rw [show (" lesson:page ".toList ++ X).dropWhile isPyWs =
      "lesson:page ".toList ++ X from by simp +decide [List.dropWhile, isPyWs]]
  rw [show "lesson:end".toList.isPrefixOf ("lesson:page ".toList ++ X) = false from by
    simp +decide [List.isPrefixOf]]
  simp

theorem suffix_append_cases {s A B : Str} (h : s <:+ A ++ B) :
    s <:+ B ∨ ∃ A₂, A₂ <:+ A ∧ A₂ ≠ [] ∧ s = A₂ ++ B := by
  induction A with
  | nil => exact Or.inl (by simpa using h)
  | cons a A' ih =>
    rw [List.cons_append] at h
    rcases List.suffix_cons_iff.mp h with hcase | hcase
    · exact Or.inr ⟨a :: A', List.suffix_rfl, by simp, by simpa using hcase⟩
    · rcases ih hcase with hl | ⟨A₂, hsuf, hne, rfl⟩
      · exact Or.inl hl
      · exact Or.inr ⟨A₂, hsuf.trans (List.suffix_cons a A'), hne, rfl⟩

/-- Build up "no end-marker match at any suffix" over a concatenation. -/
theorem noEnd_append {A B : Str}
    (hA : ∀ A₂, A₂ <:+ A → A₂ ≠ [] → matchEndAt (A₂ ++ B) = none)
    (hB : ∀ s, s <:+ B → matchEndAt s = none) :
    ∀ s, s <:+ A ++ B → matchEndAt s = none := by
  intro s hs
  rcases suffix_append_cases hs with hcase | ⟨A₂, hsuf, hne, rfl⟩
  · exact hB s hcase
  · exact hA A₂ hsuf hne

theorem noEnd_clean_seam {A B : Str} (hA : hasSubstr "<!--".toList A = false)
    (hB : B = [] ∨ B.head? = some '<' ∨ B.head? = some ' ') :
    ∀ A₂, A₂ <:+ A → A₂ ≠ [] → matchEndAt (A₂ ++ B) = none := by
  intro A₂ hsuf hne
  exact matchEndAt_none_of_no_open
    (open_seam (hasSubstr_false_of_suffix hA hsuf) hne hB)

/-- Every nonempty proper suffix of the page-marker template starts with a
character other than `<`. -/
theorem pageTemplate_suffixes :
    ∀ σ ∈ "<!-- lesson:page ".toList.tails,
      σ = "<!-- lesson:page ".toList ∨ σ = [] ∨ σ.head? ≠ some '<' := by
  decide

theorem noEnd_pageTemplate {X : Str} :
    ∀ A₂, A₂ <:+ "<!-- lesson:page ".toList → A₂ ≠ [] →
      matchEndAt (A₂ ++ X) = none := by
  intro A₂ hsuf hne
  rcases pageTemplate_suffixes A₂ ((List.mem_tails _ _).mpr hsuf) with rfl | rfl | hh
  · exact matchEndAt_pageTemplate X
  · exact absurd rfl hne
  · apply matchEndAt_none_of_head_ne
    rcases A₂ with _ | ⟨c, cs⟩
    · exact absurd rfl hne
    · simpa using hh

/-- Same for the closing `" -->"` part of a marker. -/
theorem spArrow_suffixes :
    ∀ σ ∈ " -->".toList.tails, σ.head? ≠ some '<' := by
  decide

theorem noEnd_spArrow {X : Str} :
    ∀ A₂, A₂ <:+ " -->".toList → A₂ ≠ [] → matchEndAt (A₂ ++ X) = none := by
  intro A₂ hsuf hne
  apply matchEndAt_none_of_head_ne
  have hh := spArrow_suffixes A₂ ((List.mem_tails _ _).mpr hsuf)
  rcases A₂ with _ | ⟨c, cs⟩
  · exact absurd rfl hne
  · simpa using hh

theorem matchEndAt_nil : matchEndAt ([] : Str) = none := by
  rw [matchEndAt, show "<!--".toList.isPrefixOf ([] : Str) = false from by decide]
  simp

/-- A rendered page sequence contains no end-marker match at any suffix. -/
theorem noEnd_renderPages (ps : List (Str × Str)) (hps : ∀ p ∈ ps, WfPage p) :
    ∀ s, s <:+ renderPages ps → matchEndAt s = none := by
  induction ps with
  | nil =>
    intro s hs
    obtain rfl : s = [] := List.suffix_nil.mp (by simpa [renderPages] using hs)
    exact matchEndAt_nil
  | cons p rest ih =>
    obtain ⟨t, b⟩ := p
    obtain ⟨hnl, harr, hto, hbo, hbn⟩ := hps (t, b) (List.mem_cons_self _ _)
    have hrest := ih (fun x hx => hps x (List.mem_cons_of_mem _ hx))
    rw [renderPages]
    have hmarker : pageMarker t ++ (b ++ renderPages rest) =
        "<!-- lesson:page ".toList ++
          (t ++ (" -->".toList ++ (b ++ renderPages rest))) := by
      simp [pageMarker]
    rw [hmarker]
    refine noEnd_append noEnd_pageTemplate ?_
    refine noEnd_append (noEnd_clean_seam hto ?_) ?_
    · exact Or.inr (Or.inr rfl)
    refine noEnd_append noEnd_spArrow ?_
    refine noEnd_append (noEnd_clean_seam hbo ?_) hrest
    rcases renderPages_head_cases rest with hh | hh
    · exact Or.inl hh
    · exact Or.inr (Or.inl hh)

/-- A rendered document is not truncated: it contains no end marker. -/
theorem truncate_render (front : Str) (ps : List (Str × Str))
    (hfront : hasSubstr "<!--".toList front = false)
    (hps : ∀ p ∈ ps, WfPage p) :
    truncateAtEnd (front ++ renderPages ps) = front ++ renderPages ps := by
  apply truncateAtEnd_of_none
  intro p₂ hmem
  refine noEnd_append ?_ (noEnd_renderPages ps hps) p₂ ((List.mem_tails _ _).mp hmem)
  exact noEnd_clean_seam hfront (by
    rcases renderPages_head_cases ps with hh | hh
    · exact Or.inl hh
    · exact Or.inr (Or.inl hh))

/-! Nonempty processed content for bodies with non-whitespace text. -/

theorem hasNonWs_cons (c : Char) (cs : Str) :
    hasNonWs (c :: cs) = (!(isPyWs c) || hasNonWs cs) := by
  simp [hasNonWs]

theorem hasNonWs_marker (a p X : Str) :
    hasNonWs (image_marker a p ++ X) = true := by
  rw [image_marker]
  simp [hasNonWs, IMG_DELIM]
  exact Or.inl (by decide)

theorem hasNonWs_imageSub {dir s : Str} (h : hasNonWs s = true) :
    hasNonWs (imageSub dir s) = true := by
  induction s using imageSub.induct dir with
  | case1 s alt rel rest hm =>
    rw [imageSub_eq_of_some hm]
    exact hasNonWs_marker ..
  | case2 hm => simp [hasNonWs] at h
  | case3 c cs hm hm2 ih =>
    rw [imageSub_cons_of_none hm]
    rw [hasNonWs_cons] at h ⊢
    rcases hws : isPyWs c
    · simp [hws]
    · simp only [hws, Bool.not_true, Bool.false_or] at h ⊢
      exact ih h

theorem hasNonWs_dropWhile_p {p : Char → Bool} {l : Str}
    (hp : ∀ c, p c = true → isPyWs c = true) :
    hasNonWs (l.dropWhile p) = hasNonWs l := by
  induction l with
  | nil => rfl
  | cons c cs ih =>
    rw [List.dropWhile_cons]
    split
    · rename_i hc
      rw [ih, hasNonWs_cons, hp c hc]
      simp
    · rfl

theorem hasNonWs_collapseBlank (s : Str) :
    hasNonWs (collapseBlank s) = hasNonWs s := by
  induction s using collapseBlank.induct with
  | case1 => rw [collapseBlank]
  | case2 cs hr ih =>
    rw [collapseBlank, if_pos rfl, if_pos hr]
    simp only [hasNonWs_cons]
    rw [ih, hasNonWs_dropWhile_p (p := fun c => c = '\n')
      (by intro c hc; simp at hc; simp [hc, isPyWs])]
    simp [isPyWs]
  | case3 cs hr ih =>
    rw [collapseBlank, if_pos rfl, if_neg hr]
    simp only [hasNonWs_cons]
    rw [ih]
  | case4 c cs hc ih =>
    rw [collapseBlank, if_neg hc]
    simp only [hasNonWs_cons]
    rw [ih]

theorem process_content_ne_nil {dir b : Str} (h : hasNonWs b = true) :
    process_content dir b ≠ [] := by
  unfold process_content
  apply strip_ne_nil
  rw [hasNonWs_collapseBlank]
  exact hasNonWs_imageSub h

theorem buildPages_pageParts (dir : Str) (ps : List (Str × Str))
    (hps : ∀ p ∈ ps, hasNonWs p.2 = true) :
    buildPages dir (pageParts ps) =
      ps.map (fun p => ⟨strip p.1, process_content dir p.2⟩) := by
  induction ps with
  | nil => rfl
  | cons p rest ih =>
    obtain ⟨t, b⟩ := p
    rw [pageParts, buildPages,
      if_neg (process_content_ne_nil (hps (t, b) (List.mem_cons_self _ _))),
      ih (fun x hx => hps x (List.mem_cons_of_mem _ hx))]
    rw [strip_idem]
    rfl

theorem pageParts_length (ps : List (Str × Str)) :
    (pageParts ps).length = 2 * ps.length := by
  induction ps with
  | nil => rfl
  | cons p rest ih =>
    obtain ⟨t, b⟩ := p
    rw [pageParts]
    simp [ih]
    omega

/-- C3: a document made of front matter followed by N well-formed page
markers, each with a body containing actual content, parses to exactly N
pages, in marker order, each titled with the marker's free-text title
trimmed of surrounding whitespace; the front matter appears in no page
(the result does not depend on it). -/
theorem parse_well_formed_markers (dir front : Str) (ps : List (Str × Str))
    (hfront : hasSubstr "<!--".toList front = false)
    (hps : ∀ p ∈ ps, WfPage p) :
    parse_readme dir (.contents (front ++ renderPages ps)) =
      ps.map (fun p => ⟨strip p.1, process_content dir p.2⟩) := by
  show parse_readme_text dir (front ++ renderPages ps) = _
  unfold parse_readme_text
  rw [truncate_render front ps hfront hps, pageSplit_render front ps hfront hps]
  rcases ps with _ | ⟨p, rest⟩
  · rw [if_pos (by simp [pageParts])]
    rfl
  · rw [if_neg (by
      simp only [List.length_cons, pageParts_length]
      omega)]
    rw [show (front :: pageParts (p :: rest)).drop 1 = pageParts (p :: rest) from rfl]
    exact buildPages_pageParts dir (p :: rest)
      (fun x hx => ((hps x hx).2.2.2.2))

/-- Closed witness for `parse_well_formed_markers`: two pages with
ws-padded titles after front matter; the parse yields exactly the two
stripped titles with processed bodies. -/
theorem parse_well_formed_markers_witness :
    hasSubstr "<!--".toList "Intro junk, not a page.\n".toList = false ∧
    (∀ p ∈ [("  Getting Started ".toList, "Hello world.\n".toList),
        ("Part 2".toList, "\nBody two\n".toList)], WfPage p) ∧
    parse_readme "/d".toList (.contents ("Intro junk, not a page.\n".toList ++
        renderPages [("  Getting Started ".toList, "Hello world.\n".toList),
          ("Part 2".toList, "\nBody two\n".toList)])) =
      [⟨strip "  Getting Started ".toList,
          process_content "/d".toList "Hello world.\n".toList⟩,
        ⟨strip "Part 2".toList,
          process_content "/d".toList "\nBody two\n".toList⟩] := by
  refine ⟨by decide, by decide, ?_⟩
  exact parse_well_formed_markers "/d".toList _ _ (by decide) (by decide)

/-! ## Claim C6: blank-line collapsing, trimming and empty-page omission -/

theorem getLast?_cons_ne {c x : Char} {cs : Str}
    (h : (c :: cs).getLast? ≠ some x) (hne : cs ≠ []) :
    cs.getLast? ≠ some x := by
  rwa [getLast?_of_suffix (List.suffix_cons c cs) hne] at h

theorem takeWhile_head_ne {b : Str} (hb : b.head? ≠ some '\n') :
    b.takeWhile (fun c => c = '\n') = [] := by
  rcases b with _ | ⟨x, xs⟩
  · rfl
  · have hx : x ≠ '\n' := by
      intro hx
      exact hb (by simp [hx])
    rw [List.takeWhile_cons, if_neg (by simp [hx])]

theorem dropWhile_head_ne {b : Str} (hb : b.head? ≠ some '\n') :
    b.dropWhile (fun c => c = '\n') = b := by
  rcases b with _ | ⟨x, xs⟩
  · rfl
  · have hx : x ≠ '\n' := by
      intro hx
      exact hb (by simp [hx])
    rw [List.dropWhile_cons, if_neg (by simp [hx])]

/-- A maximal run of `m ≥ 3` newlines between a text not ending in a
newline and a text not starting with one collapses to exactly two
newlines (one blank line), with the surrounding text handled
independently. -/
theorem collapseBlank_concat {m : Nat} (hm : 3 ≤ m) {b : Str}
    (hb : b.head? ≠ some '\n') :
    ∀ a : Str, a.getLast? ≠ some '\n' →
      collapseBlank (a ++ (List.replicate m '\n' ++ b)) =
        collapseBlank a ++ ('\n' :: '\n' :: collapseBlank b) := by
  intro a
  induction a using collapseBlank.induct with
  | case1 =>
    intro _
    obtain ⟨k, rfl⟩ : ∃ k, m = k + 3 := ⟨m - 3, by omega⟩
    rw [List.nil_append, List.replicate_succ, List.cons_append,
      show collapseBlank ([] : Str) = [] from by rw [collapseBlank],
      List.nil_append]
    rw [collapseBlank, if_pos rfl, if_pos (by
      rw [takeWhile_append_all (by
        intro c hc
        simp [List.eq_of_mem_replicate hc]), takeWhile_head_ne hb]
      simp
      omega)]
    rw [dropWhile_append_all (by
        intro c hc
        simp [List.eq_of_mem_replicate hc]), dropWhile_head_ne hb]
  | case2 cs hr ih =>
    intro ha
    have hstop : cs.dropWhile (fun c => c = '\n') ≠ [] := by
      intro hnil
      apply ha
      rcases hg : ('\n' :: cs).getLast? with _ | d
      · simp at hg
      · obtain ⟨hh, rfl⟩ := List.mem_getLast?_eq_getLast hg
        have hdmem := List.getLast_mem hh
        rcases List.mem_cons.mp hdmem with hcd | hmem
        · rw [hcd]
        · have := List.dropWhile_eq_nil_iff.mp hnil _ hmem
          simp at this
          rw [this]
    have hcsne : cs ≠ [] := by
      intro hnil
      rw [hnil] at hstop
      exact hstop rfl
    rw [List.cons_append, collapseBlank, if_pos rfl, if_pos (by
      rw [takeWhile_append_of_ne_nil hstop]
      exact hr)]
    rw [dropWhile_append_of_ne_nil hstop]
    rw [ih (by
      rw [← getLast?_of_suffix (List.dropWhile_suffix _) hstop]
      exact getLast?_cons_ne ha hcsne)]
    rw [collapseBlank, if_pos rfl, if_pos hr]
    simp
  | case3 cs hr ih =>
    intro ha
    have hstop : cs.dropWhile (fun c => c = '\n') ≠ [] := by
      intro hnil
      apply ha
      rcases hg : ('\n' :: cs).getLast? with _ | d
      · simp at hg
      · obtain ⟨hh, rfl⟩ := List.mem_getLast?_eq_getLast hg
        have hdmem := List.getLast_mem hh
        rcases List.mem_cons.mp hdmem with hcd | hmem
        · rw [hcd]
        · have := List.dropWhile_eq_nil_iff.mp hnil _ hmem
          simp at this
          rw [this]
    have hcsne : cs ≠ [] := by
      intro hnil
      rw [hnil] at hstop
      exact hstop rfl
    rw [List.cons_append, collapseBlank, if_pos rfl, if_neg (by
      rw [takeWhile_append_of_ne_nil hstop]
      exact hr)]
    rw [ih (getLast?_cons_ne ha hcsne)]
    rw [collapseBlank, if_pos rfl, if_neg hr]
    simp
  | case4 c cs hc ih =>
    intro ha
    have ha' : cs.getLast? ≠ some '\n' := by
      rcases hcs : cs with _ | ⟨x, xs⟩
      · simp
      · rw [← hcs]
        exact getLast?_cons_ne ha (by rw [hcs]; simp)
    rw [List.cons_append, collapseBlank, if_neg hc, ih ha']
    rw [collapseBlank, if_neg hc]
    simp

theorem matchImageAt_none_of_no_bang_mem {s : Str} (h : '!' ∉ s) :
    matchImageAt s = none := by
  apply matchImageAt_none_of_no_bang
  rcases s with _ | ⟨c, cs⟩
  · decide
  · have hc : c ≠ '!' := by
      intro hc
      exact h (hc ▸ List.mem_cons_self c cs)
    simp [List.isPrefixOf]
    intro hh
    exact absurd hh.symm hc

theorem imageSub_of_no_bang {dir s : Str} (h : '!' ∉ s) :
    imageSub dir s = s := by
  induction s with
  | nil => exact imageSub_nil dir
  | cons c cs ih =>
    rw [imageSub_cons_of_none (matchImageAt_none_of_no_bang_mem h),
      ih (fun hm => h (List.mem_cons_of_mem c hm))]

theorem process_content_all_ws {dir c : Str} (h : hasNonWs c = false) :
    process_content dir c = [] := by
  unfold process_content
  rw [imageSub_of_no_bang (by
    intro hmem
    have := all_ws_of_not_hasNonWs h '!' hmem
    simp [isPyWs] at this)]
  apply strip_all_ws
  rw [hasNonWs_collapseBlank]
  exact h

theorem process_content_nil (dir : Str) : process_content dir [] = [] :=
  process_content_all_ws (by rfl)

theorem buildPages_content (dir : Str) : ∀ parts : List Str,
    ∀ pg ∈ buildPages dir parts, strip pg.content = pg.content ∧ pg.content ≠ [] := by
  intro parts
  induction parts using buildPages.induct dir with
  | case1 =>
    intro pg hpg
    simp [buildPages] at hpg
  | case2 t =>
    intro pg hpg
    rw [buildPages, if_pos (process_content_nil dir)] at hpg
    simp at hpg
  | case3 t =>
    rename_i hne
    exact absurd (process_content_nil dir) hne
  | case4 t c rest ih =>
    intro pg hpg
    rw [buildPages] at hpg
    rcases List.mem_append.mp hpg with hmem | hmem
    · rcases hpc : process_content dir c with _ | ⟨x, xs⟩
      · rw [hpc] at hmem
        simp at hmem
      · rw [hpc] at hmem
        rw [if_neg (by simp)] at hmem
        simp at hmem
        subst hmem
        refine ⟨?_, by simp⟩
        show strip (x :: xs) = x :: xs
        rw [← hpc]
        unfold process_content
        rw [strip_idem]
    · exact ih pg hmem

theorem buildPages_skip {dir t c : Str} {rest : List Str}
    (h : process_content dir c = []) :
    buildPages dir (t :: c :: rest) = buildPages dir rest := by
  rw [buildPages, if_pos h]
  rfl

/-- C6: the per-page normalization pipeline collapses every maximal run of
3 or more newline characters (2 or more blank lines, `\n{3,}` in the
source) to exactly one blank line (two newlines); every produced page's
content is trimmed of leading and trailing whitespace (and nonempty); and
a page whose content is whitespace-only after processing is omitted, so
the page count shrinks accordingly. -/
theorem page_normalization (dir a b c t : Str) (parts : List Str) (m : Nat)
    (hm : 3 ≤ m) (ha : a.getLast? ≠ some '\n') (hb : b.head? ≠ some '\n')
    (hc : hasNonWs c = false) :
    collapseBlank (a ++ (List.replicate m '\n' ++ b)) =
      collapseBlank a ++ ('\n' :: '\n' :: collapseBlank b) ∧
    (∀ pg ∈ buildPages dir parts, strip pg.content = pg.content ∧ pg.content ≠ []) ∧
    process_content dir c = [] ∧
    buildPages dir (t :: c :: parts) = buildPages dir parts ∧
    (buildPages dir (t :: c :: parts)).length = (buildPages dir parts).length := by
  refine ⟨collapseBlank_concat hm hb a ha, buildPages_content dir parts,
    process_content_all_ws hc, buildPages_skip (process_content_all_ws hc), ?_⟩
  rw [buildPages_skip (process_content_all_ws hc)]

/-- Closed witness for `page_normalization` at concrete inputs: a run of
four newlines, and a whitespace-only page body that is dropped. -/
theorem page_normalization_witness :
    (3 : Nat) ≤ 4 ∧ "x".toList.getLast? ≠ some '\n' ∧
    "y".toList.head? ≠ some '\n' ∧ hasNonWs " \n\t ".toList = false ∧
    collapseBlank ("x".toList ++ (List.replicate 4 '\n' ++ "y".toList)) =
      collapseBlank "x".toList ++ ('\n' :: '\n' :: collapseBlank "y".toList) ∧
    buildPages "/d".toList
        ["Empty Page".toList, " \n\t ".toList, "T".toList, "body".toList] =
      buildPages "/d".toList ["T".toList, "body".toList] := by
  refine ⟨by decide, by decide, by decide, by decide, ?_, ?_⟩
  · exact (page_normalization "/d".toList "x".toList "y".toList " \n\t ".toList
      "Empty Page".toList [] 4 (by decide) (by decide) (by decide) (by decide)).1
  · exact (page_normalization "/d".toList "x".toList "y".toList " \n\t ".toList
      "Empty Page".toList ["T".toList, "body".toList] 4 (by decide) (by decide)
      (by decide) (by decide)).2.2.2.1

end LearnPlatform
